import Mathlib

/-!
Verification of the batchkit core engine (`packages/core/src/batch.ts`,
`packages/core/src/match.ts`, `packages/core/src/trace.ts`) against its
natural-language specification.

The development shallowly embeds the pure core of the engine:

* request grouping and key deduplication (`processChunk`, lines 150-167),
* chunking by maximum batch size (`dispatch`, lines 108-144),
* result-to-request settlement for the three matching strategies
  (`processChunk`, lines 185-271, and `match.ts`),
* the settle-at-most-once guard of `getSingle` (lines 294-323) together
  with `rejectAsAborted` (lines 84-88) and the abort listener
  (`onAbort`, lines 327-364),
* batcher-wide `abort` (lines 388-408) over an explicit registry state,
* the tracing boundary (`trace.ts`, `createTracer`, lines 56-87), and
* a timed model of JavaScript `Promise.all` for the multi-key entry
  point `get(keys[])` (lines 370-377).

Callback-style settlement is modelled by returning settlement data;
mutation of shared request objects is modelled by explicit state passing;
`AbortSignal`/`AbortController` pairs are modelled by boolean flags.
-/

namespace Batchkit

/-- Errors raised by the engine: `DOMException('Aborted','AbortError')`
(batch.ts line 81), `BatchError` (errors module), and errors thrown by
the resolver itself, carried verbatim. -/
inductive JsError : Type where
  | abortError : JsError
  | batchError : String → JsError
  | resolverError : String → JsError
deriving DecidableEq, Repr

/-- The final state delivered to one pending promise: `resolve(value)` or
`reject(error)`. -/
inductive Settlement (V : Type) : Type where
  | resolved : V → Settlement V
  | rejected : JsError → Settlement V
deriving DecidableEq, Repr

/-- One queued request (batch.ts lines 317-323): its identity, its raw
caller-supplied key and its `aborted` latch.  The `resolve`/`reject`
closures are modelled separately by `ReqState`. -/
structure PendingRequest (K : Type) : Type where
  rid : Nat
  key : K
  aborted : Bool
deriving DecidableEq, Repr

section Grouping

variable {K CK : Type} [DecidableEq CK]

/-- Reading `keyToRequests.get(cacheKey)` (batch.ts line 158): the map is
modelled as an association list in insertion order. -/
def lookupGroup (groups : List (CK × List (PendingRequest K))) (ck : CK) :
    Option (List (PendingRequest K)) :=
  (groups.find? (fun p => decide (p.1 = ck))).map (·.2)

/-- The mutation `requests.push(request)` (batch.ts line 164) on the group
stored under `ck`. -/
def pushToGroup (groups : List (CK × List (PendingRequest K))) (ck : CK)
    (r : PendingRequest K) : List (CK × List (PendingRequest K)) :=
  groups.map (fun p => if p.1 = ck then (p.1, p.2 ++ [r]) else p)

/-- The pair of `keyToRequests` and `uniqueKeys` built by the grouping
loop of `processChunk` (batch.ts lines 150-165). -/
structure Grouping (K CK : Type) : Type where
  keyToRequests : List (CK × List (PendingRequest K))
  uniqueKeys : List K
deriving Repr

/-- One iteration of the grouping loop (batch.ts lines 153-165): skip
aborted requests; otherwise append the request to the group of its
normalized key, creating the group and recording the raw key on first
occurrence. -/
def groupStep (keyFn : K → CK) (acc : Grouping K CK) (r : PendingRequest K) :
    Grouping K CK :=
  if r.aborted then acc
  else
    let ck := keyFn r.key
    match lookupGroup acc.keyToRequests ck with
    | some _ => ⟨pushToGroup acc.keyToRequests ck r, acc.uniqueKeys⟩
    | none => ⟨acc.keyToRequests ++ [(ck, [r])], acc.uniqueKeys ++ [r.key]⟩

/-- The grouping loop of `processChunk` (batch.ts lines 150-165). -/
def buildGroups (keyFn : K → CK) (chunk : List (PendingRequest K)) :
    Grouping K CK :=
  chunk.foldl (groupStep keyFn) ⟨[], []⟩

/-- The requests of the chunk not yet aborted (the `request.aborted`
filter of the grouping loop, and the `queue.filter` of `dispatch`,
batch.ts line 109). -/
def activeOf (chunk : List (PendingRequest K)) : List (PendingRequest K) :=
  chunk.filter (fun r => !r.aborted)

/-- Spec-side definition: deduplicate a key list by normalized key,
keeping the first occurrence of each class, in first-occurrence order. -/
def dedupByNormalized (keyFn : K → CK) : List K → List K
  | [] => []
  | k :: ks =>
    k :: dedupByNormalized keyFn (ks.filter (fun x => decide (keyFn x ≠ keyFn k)))
termination_by l => l.length
decreasing_by
  simp only [List.length_cons]
  exact Nat.lt_succ_of_le (List.length_filter_le _ _)

/-- Fold-shaped variant of `dedupByNormalized` carrying the set of
normalized keys already seen; bridges the grouping fold to the spec-side
recursion. -/
def dedupSeen (keyFn : K → CK) (seen : List CK) : List K → List K
  | [] => []
  | k :: ks =>
    if keyFn k ∈ seen then dedupSeen keyFn seen ks
    else k :: dedupSeen keyFn (keyFn k :: seen) ks

/-- The requests of the chunk that are active and belong to one
normalized-key class: the contents of `keyToRequests.get(ck)`. -/
def classReqs (keyFn : K → CK) (chunk : List (PendingRequest K)) (ck : CK) :
    List (PendingRequest K) :=
  (activeOf chunk).filter (fun r => decide (keyFn r.key = ck))

/-- Appending new arrivals to the optional contents of a map entry:
`some` grows the stored group, `none` materializes the entry exactly
when something arrives. -/
def optAppend {K : Type} (o : Option (List (PendingRequest K)))
    (l : List (PendingRequest K)) : Option (List (PendingRequest K)) :=
  match o with
  | some g => some (g ++ l)
  | none => if l.isEmpty then none else some l

end Grouping

section Matching

variable {K V : Type}

/-- The runtime value returned by the resolver: either a JavaScript array
(an ordered sequence) or a plain object used as a string-keyed lookup
table. -/
inductive ResolverResult (V : Type) : Type where
  | arr : List V → ResolverResult V
  | record : List (String × V) → ResolverResult V
deriving DecidableEq, Repr

/-- Decimal digit value of a character. -/
def decDigit? (c : Char) : Option Nat :=
  if c = '0' then some 0
  else if c = '1' then some 1
  else if c = '2' then some 2
  else if c = '3' then some 3
  else if c = '4' then some 4
  else if c = '5' then some 5
  else if c = '6' then some 6
  else if c = '7' then some 7
  else if c = '8' then some 8
  else if c = '9' then some 9
  else none

/-- A string that is the canonical decimal form of an array index (as
JavaScript defines array index keys): nonempty, digits only, and no
leading zero except for "0" itself. -/
def parseCanonicalIndex (s : String) : Option Nat :=
  match s.data with
  | [] => none
  | c :: cs =>
    if c = '0' ∧ cs ≠ [] then none
    else
      (c :: cs).foldl (fun acc ch =>
        match acc, decDigit? ch with
        | some n, some d => some (n * 10 + d)
        | _, _ => none) (some 0)

/-- JavaScript string-keyed property access `results[s]`, as performed by
`createIndexedMatcher` (match.ts lines 86-91).  On an object literal this
is association lookup; on an array, a string that is the canonical
decimal form of an index addresses the element at that index (other
array properties are not modelled; omitting them only removes matches). -/
def jsIndex (res : ResolverResult V) (s : String) : Option V :=
  match res with
  | .record entries => (entries.find? (fun p => decide (p.1 = s))).map (·.2)
  | .arr xs =>
    match parseCanonicalIndex s with
    | some n => xs.get? n
    | none => none

/-- The `Match` argument of `batch` in tagged form: the `indexed` marker,
a field name (modelled by the projection it induces on result objects),
or a caller-supplied match function (match.ts lines 52-84). -/
inductive MatchStrategy (K V : Type) : Type where
  | indexed : MatchStrategy K V
  | field : (V → Option K) → MatchStrategy K V
  | custom : (List V → K → Option V) → MatchStrategy K V

/-- The function `normalizeMatch` (match.ts lines 60-84): `indexed` is
handled separately (`null`); a field name becomes a scan for the first
result whose named field strictly equals the requested key (an absent
field never equals a key); a custom function is returned unchanged. -/
def normalizeMatch [DecidableEq K] : MatchStrategy K V → Option (List V → K → Option V)
  | .indexed => none
  | .field proj => some (fun results k => results.find? (fun item => decide (proj item = some k)))
  | .custom f => some f

end Matching

section Settling

variable {K V CK : Type} [DecidableEq CK] [DecidableEq K]

/-- Message thrown by `processChunk` when an array-strategy resolver
returns a non-array (batch.ts lines 229-231). -/
def nonArrayMsg : String :=
  "Batch function returned a non-array result. Use `indexed` for Record responses."

/-- Settling one key group (batch.ts lines 214-223 and 240-249): skip
requests aborted by the time results arrive; reject with `BatchError`
when no value matched, otherwise resolve with the matched value.
`abortedAfter` gives each request's `aborted` flag at settlement time
(it may have been set during the resolver round trip). -/
def settleValue (value : Option V) (msg : String) : Settlement V :=
  match value with
  | some v => Settlement.resolved v
  | none => Settlement.rejected (JsError.batchError msg)

/-- The inner loop over one key group (batch.ts lines 214-223). -/
def settleGroup (abortedAfter : Nat → Bool) (requests : List (PendingRequest K))
    (value : Option V) (msg : String) : List (Nat × Settlement V) :=
  requests.filterMap (fun r =>
    if abortedAfter r.rid then none
    else some (r.rid, settleValue value msg))

/-- Rejecting every grouped, not-yet-aborted request with one error: the
`catch` loop of `processChunk` (batch.ts lines 265-271) and the
post-await `signal.aborted` loop (lines 192-196, whose
`rejectAsAborted` also skips requests already aborted). -/
def rejectRemaining (V : Type) (abortedAfter : Nat → Bool)
    (g : Grouping K CK) (e : JsError) : List (Nat × Settlement V) :=
  ((g.keyToRequests.map (·.2)).flatten).filterMap (fun r =>
    if abortedAfter r.rid then none else some (r.rid, Settlement.rejected e))

/-- The full settlement behavior of `processChunk` (batch.ts lines
146-275) as a function of the resolver round trip:
`outcome` is the resolver call's result (`Except.error` when it threw,
with the thrown error), `signalAborted` is `signal.aborted` after the
await, and `abortedAfter` gives the requests' `aborted` flags at that
point.  Returns the settlements delivered, in delivery order. -/
def processChunkSettlements (keyFn : K → CK) (strKey : K → String)
    (strat : MatchStrategy K V) (chunk : List (PendingRequest K))
    (abortedAfter : Nat → Bool) (outcome : Except JsError (ResolverResult V))
    (signalAborted : Bool) : List (Nat × Settlement V) :=
  let g := buildGroups keyFn chunk
  if g.uniqueKeys.isEmpty then []
  else
    match outcome with
    | .error e => rejectRemaining V abortedAfter g e
    | .ok results =>
      if signalAborted then rejectRemaining V abortedAfter g JsError.abortError
      else
        match normalizeMatch strat with
        | none =>
          g.uniqueKeys.flatMap (fun key =>
            match lookupGroup g.keyToRequests (keyFn key) with
            | none => []
            | some requests =>
              settleGroup abortedAfter requests (jsIndex results (strKey key))
                ("No result for key: " ++ strKey key))
        | some f =>
          match results with
          | .record _ => rejectRemaining V abortedAfter g (JsError.batchError nonArrayMsg)
          | .arr xs =>
            g.uniqueKeys.flatMap (fun key =>
              match lookupGroup g.keyToRequests (keyFn key) with
              | none => []
              | some requests =>
                settleGroup abortedAfter requests (f xs key)
                  ("No result for key: " ++ strKey key))

end Settling

section Chunking

variable {α : Type}

/-- The chunking loop of `dispatch` (batch.ts lines 131-134):
`batch.slice(i, i + max)` for `i = 0, max, 2·max, …`. -/
def sliceChunks (m : Nat) (l : List α) : List (List α) :=
  if _hm : m = 0 then [l]
  else
    match l with
    | [] => []
    | x :: xs => (x :: xs).take m :: sliceChunks m ((x :: xs).drop m)
termination_by l.length
decreasing_by
  simp only [List.length_drop, List.length_cons]
  omega

/-- Chunk selection of `dispatch` (batch.ts lines 130-137): split into
slices of `max` when `max && max > 0`, otherwise one single chunk. -/
def chunksOf (maxSize : Option Nat) (l : List α) : List (List α) :=
  match maxSize with
  | some m => if 0 < m then sliceChunks m l else [l]
  | none => [l]

end Chunking

section Dispatching

variable {K CK : Type} [DecidableEq CK]

/-- The resolver invocations performed by one dispatch cycle (batch.ts
lines 108-144 with lines 146-186): snapshot the non-aborted queue, split
it into chunks, and for each chunk in order call the resolver with that
chunk's `uniqueKeys` unless deduplication left none.  The model is a
list in call order, matching the sequential `await` of line 142. -/
def dispatchInvocations (maxSize : Option Nat) (keyFn : K → CK)
    (queue : List (PendingRequest K)) : List (List K) :=
  let active := activeOf queue
  if active.isEmpty then []
  else
    (chunksOf maxSize active).filterMap (fun c =>
      let u := (buildGroups keyFn c).uniqueKeys
      if u.isEmpty then none else some u)

end Dispatching

section Guard

variable {V : Type}

/-- The per-request completion state held by `getSingle`'s closure
(batch.ts lines 294-323): the `settled` latch, the value or error
delivered to the caller's promise (if any), and the `aborted` latch of
the request object. -/
structure ReqState (V : Type) : Type where
  settled : Bool
  outcome : Option (Settlement V)
  aborted : Bool
deriving DecidableEq, Repr

/-- State of a freshly created request (batch.ts lines 295, 317-323). -/
def freshReq : ReqState V := ⟨false, none, false⟩

/-- The completion paths that can race for one request: the guarded
`resolve`/`reject` closures (lines 299-315), the per-request
cancellation listener `onAbort` (lines 328-331, settlement part), and
`rejectAsAborted` reached from batcher-wide abort (lines 84-88). -/
inductive SettleEvent (V : Type) : Type where
  | resolveCall : V → SettleEvent V
  | rejectCall : JsError → SettleEvent V
  | tokenAbort : SettleEvent V
  | batcherAbort : SettleEvent V
deriving DecidableEq, Repr

/-- The guarded `resolve` closure (batch.ts lines 299-306): a no-op once
`settled` is set; otherwise latches `settled` and delivers the value.
The returned list holds the callbacks actually invoked on the
underlying promise. -/
def deliverResolve (s : ReqState V) (v : V) : ReqState V × List (Settlement V) :=
  if s.settled then (s, [])
  else ({ s with settled := true, outcome := some (.resolved v) }, [.resolved v])

/-- The guarded `reject` closure (batch.ts lines 308-315). -/
def deliverReject (s : ReqState V) (e : JsError) : ReqState V × List (Settlement V) :=
  if s.settled then (s, [])
  else ({ s with settled := true, outcome := some (.rejected e) }, [.rejected e])

/-- One completion attempt.  `tokenAbort` is the body of `onAbort`
(batch.ts lines 330-331): set the `aborted` latch, then call the guarded
`reject` with an abort error.  `batcherAbort` is `rejectAsAborted`
(lines 84-88): a no-op when `aborted` is already latched. -/
def applyEvent (s : ReqState V) : SettleEvent V → ReqState V × List (Settlement V)
  | .resolveCall v => deliverResolve s v
  | .rejectCall e => deliverReject s e
  | .tokenAbort => deliverReject { s with aborted := true } JsError.abortError
  | .batcherAbort =>
    if s.aborted then (s, [])
    else deliverReject { s with aborted := true } JsError.abortError

/-- Running a sequence of racing completion attempts, collecting every
callback delivered to the underlying promise. -/
def runEvents (s : ReqState V) (evs : List (SettleEvent V)) :
    ReqState V × List (Settlement V) :=
  evs.foldl (fun acc ev =>
    let step := applyEvent acc.1 ev
    (step.1, acc.2 ++ step.2)) (s, [])

end Guard

section InFlight

variable {K : Type}

/-- One active chunk as tracked by the engine (batch.ts lines 68-78,
175-181): the requests grouped into it and whether its shared
`AbortController` has been cancelled. -/
structure InFlightChunk (K : Type) : Type where
  requests : List (PendingRequest K)
  controllerAborted : Bool
deriving DecidableEq, Repr

/-- The mutation `request.aborted = true` (batch.ts line 330) on the
shared request object referenced from the chunk's request list. -/
def markAborted (reqs : List (PendingRequest K)) (rid : Nat) :
    List (PendingRequest K) :=
  reqs.map (fun r => if r.rid = rid then { r with aborted := true } else r)

/-- The in-flight branch of the `onAbort` listener (batch.ts lines
329-339): mark the request aborted, then cancel the chunk's shared
controller exactly when every request of the chunk is now aborted. -/
def onAbortInFlight (c : InFlightChunk K) (rid : Nat) : InFlightChunk K :=
  let rs := markAborted c.requests rid
  { requests := rs
    controllerAborted := c.controllerAborted || rs.all (·.aborted) }

end InFlight

section Registry

variable {K CK V : Type} [DecidableEq CK]

/-- One active chunk by request identity, for the registry-level model. -/
structure ChunkRef : Type where
  rids : List Nat
  controllerAborted : Bool
deriving DecidableEq, Repr

/-- The per-batcher registry state (batch.ts lines 62-78): the queue and
`pendingKeys` of the current cycle, the set of dispatched unsettled
requests, the active chunks, the `isScheduled` flag and whether a
schedule-cancel callback (`cleanup`) is held.  Request completion state
is kept in one association list keyed by request id. -/
structure BatcherState (CK V : Type) : Type where
  reqs : List (Nat × ReqState V)
  queue : List Nat
  pendingKeys : List CK
  activeRequests : List Nat
  inFlight : List ChunkRef
  isScheduled : Bool
  hasCleanup : Bool

/-- Lookup in the request-state association list. -/
def stateOf (m : List (Nat × ReqState V)) (rid : Nat) : Option (ReqState V) :=
  (m.find? (fun p => decide (p.1 = rid))).map (·.2)

/-- Completion state of one request in the registry model. -/
def reqStateOf (st : BatcherState CK V) (rid : Nat) : Option (ReqState V) :=
  (st.reqs.find? (fun p => decide (p.1 = rid))).map (·.2)

/-- Point update of one request's completion state. -/
def updateReq (m : List (Nat × ReqState V)) (rid : Nat)
    (f : ReqState V → ReqState V) : List (Nat × ReqState V) :=
  m.map (fun p => if p.1 = rid then (p.1, f p.2) else p)

/-- The function `rejectAsAborted` (batch.ts lines 84-88) as a state
transformer: skip requests already latched aborted; otherwise latch
`aborted` and perform the guarded reject with an abort error. -/
def rejectAsAborted (s : ReqState V) : ReqState V :=
  if s.aborted then s
  else (deliverReject { s with aborted := true } JsError.abortError).1

/-- The function `abort` (batch.ts lines 388-408): reject every queued
request and every active (dispatched, unsettled) request as aborted,
clear the queue and `pendingKeys`, cancel every active chunk's
controller, cancel the pending schedule and clear `isScheduled`. -/
def abort (st : BatcherState CK V) : BatcherState CK V :=
  let m1 := st.queue.foldl (fun m rid => updateReq m rid rejectAsAborted) st.reqs
  let m2 := st.activeRequests.foldl (fun m rid => updateReq m rid rejectAsAborted) m1
  { st with
    reqs := m2
    queue := []
    pendingKeys := []
    inFlight := st.inFlight.map (fun c => { c with controllerAborted := true })
    hasCleanup := false
    isScheduled := false }

/-- The synchronous part of `getSingle` (batch.ts lines 277-367) for a
request whose token has not already fired: record the normalized key in
`pendingKeys` (a duplicate only emits a trace event), create the request,
push it onto the queue, and run `scheduleDispatch` (lines 90-106), which
arranges a dispatch unless one is already scheduled. -/
def getSingleSync (keyFn : K → CK) (st : BatcherState CK V) (rid : Nat)
    (key : K) : BatcherState CK V :=
  let ck := keyFn key
  let st1 :=
    if ck ∈ st.pendingKeys then st
    else { st with pendingKeys := st.pendingKeys ++ [ck] }
  let st2 := { st1 with
    reqs := st1.reqs ++ [(rid, freshReq)]
    queue := st1.queue ++ [rid] }
  if st2.isScheduled || st2.queue.isEmpty then st2
  else { st2 with isScheduled := true, hasCleanup := true }

end Registry

section Trace

/-- The lifecycle event kinds emitted by the engine (the `type` fields
used in batch.ts: get, dedup, schedule, dispatch, resolve, error,
abort). -/
inductive TraceEventKind : Type where
  | get : TraceEventKind
  | dedup : TraceEventKind
  | schedule : TraceEventKind
  | dispatch : TraceEventKind
  | resolve : TraceEventKind
  | error : TraceEventKind
  | abort : TraceEventKind
deriving DecidableEq, Repr

/-- The body of `createTracer`'s `emit` (trace.ts lines 65-80) restricted
to the caller-supplied sink: the handler is invoked directly, with no
try/catch around it, so a sink that throws makes `emit` itself throw.
A sink is modelled as a function that may throw (`Except`); the
timestamp attached to the event does not affect this control flow and
is omitted. -/
def emit (handler : Option (TraceEventKind → Except JsError Unit))
    (ev : TraceEventKind) : Except JsError Unit :=
  match handler with
  | none => Except.ok ()
  | some h => h ev

/-- The entry of `getSingle` (batch.ts line 280): `tracer.emit({type:
'get', key})` runs synchronously before any other work, so its result
(normal or thrown) is the first thing a `get()` caller observes. -/
def getEmitsTrace (handler : Option (TraceEventKind → Except JsError Unit)) :
    Except JsError Unit :=
  emit handler TraceEventKind.get

end Trace

section Timed

variable {K CK V : Type} [DecidableEq CK] [DecidableEq K]

/-- Outcome of one JavaScript promise. -/
inductive Outcome (V : Type) : Type where
  | fulfilled : V → Outcome V
  | rejected : JsError → Outcome V
deriving DecidableEq, Repr

/-- View of an engine settlement as a promise outcome. -/
def outcomeOf : Settlement V → Outcome V
  | .resolved v => .fulfilled v
  | .rejected e => .rejected e

/-- One step of scanning for the earliest rejection. -/
def rejStep (acc : Option (Nat × JsError)) (p : Nat × Outcome V) :
    Option (Nat × JsError) :=
  match p.2 with
  | .fulfilled _ => acc
  | .rejected e =>
    match acc with
    | none => some (p.1, e)
    | some q => if p.1 < q.1 then some (p.1, e) else some q

/-- The earliest rejection among timed promise outcomes (first in list
order among equal times). -/
def firstRejection (ps : List (Nat × Outcome V)) : Option (Nat × JsError) :=
  ps.foldl rejStep none

/-- JavaScript `Promise.all` over promises that each settle at a known
time: if every promise fulfills, the aggregate fulfills with the values
in input order once the last one has settled; as soon as any promise
rejects, the aggregate rejects with that first rejection, without
waiting for the remaining promises. -/
def promiseAllTimed (ps : List (Nat × Outcome V)) : Nat × Outcome (List V) :=
  match firstRejection ps with
  | some q => (q.1, .rejected q.2)
  | none =>
    ((ps.map (·.1)).foldr max 0,
     .fulfilled (ps.filterMap (fun p =>
       match p.2 with
       | .fulfilled v => some v
       | .rejected _ => none)))

/-- The settlements of one dispatch cycle with each request tagged by the
index of the chunk that settled it; chunks run strictly in sequence
(batch.ts lines 139-143), so the chunk index orders settlement times.
The resolver is modelled as a pure function of the chunk's unique keys
and is assumed to return normally with no cancellation in flight. -/
def cycleSettleTimed (maxSize : Option Nat) (keyFn : K → CK)
    (strKey : K → String) (strat : MatchStrategy K V)
    (resolve : List K → ResolverResult V) (queue : List (PendingRequest K)) :
    List (Nat × Nat × Settlement V) :=
  ((chunksOf maxSize (activeOf queue)).enum).flatMap (fun p =>
    (processChunkSettlements keyFn strKey strat p.2 (fun _ => false)
      (Except.ok (resolve (buildGroups keyFn p.2).uniqueKeys)) false).map
      (fun q => (q.1, p.1, q.2)))

/-- The requests created by the multi-key entry point
`get(keys[])` (batch.ts lines 372-376): one `getSingle` intake per key,
in the caller's order. -/
def requestsOf (keys : List K) : List (PendingRequest K) :=
  keys.enum.map (fun p => ⟨p.1, p.2, false⟩)

/-- Each intake's settlement time (chunk index) and promise outcome for
one dispatch cycle over the keys of a `get(keys[])` call. -/
def intakeOutcomes (maxSize : Option Nat) (keyFn : K → CK)
    (strKey : K → String) (strat : MatchStrategy K V)
    (resolve : List K → ResolverResult V) (keys : List K) :
    List (Nat × Outcome V) :=
  let settles := cycleSettleTimed maxSize keyFn strKey strat resolve (requestsOf keys)
  (requestsOf keys).filterMap (fun r =>
    (settles.find? (fun q => decide (q.1 = r.rid))).map
      (fun q => (q.2.1, outcomeOf q.2.2)))

/-- The multi-key entry point `get(keys[])` (batch.ts lines 372-376):
`Promise.all` over the single-key intakes, under the timed model. -/
def getManyTimed (maxSize : Option Nat) (keyFn : K → CK)
    (strKey : K → String) (strat : MatchStrategy K V)
    (resolve : List K → ResolverResult V) (keys : List K) :
    Nat × Outcome (List V) :=
  promiseAllTimed (intakeOutcomes maxSize keyFn strKey strat resolve keys)

end Timed

section GroupingLemmas

variable {K CK : Type} [DecidableEq CK]

theorem lookupGroup_cons (p : CK × List (PendingRequest K))
    (gs : List (CK × List (PendingRequest K))) (ck : CK) :
    lookupGroup (p :: gs) ck = if p.1 = ck then some p.2 else lookupGroup gs ck := by
  by_cases h : p.1 = ck
  · simp [lookupGroup, List.find?_cons_of_pos, h]
  · simp [lookupGroup, List.find?_cons_of_neg, h]

theorem lookupGroup_pushToGroup (gs : List (CK × List (PendingRequest K)))
    (c ck : CK) (r : PendingRequest K) :
    lookupGroup (pushToGroup gs c r) ck =
      if ck = c then (lookupGroup gs c).map (fun g => g ++ [r])
      else lookupGroup gs ck := by
  induction gs with
  | nil => by_cases h : ck = c <;> simp [pushToGroup, lookupGroup, h]
  | cons p tl ih =>
    have hpush : pushToGroup (p :: tl) c r
        = ((if p.1 = c then (p.1, p.2 ++ [r]) else p) :: pushToGroup tl c r) := by
      simp [pushToGroup]
    rw [hpush]
    rw [lookupGroup_cons]
    rw [show lookupGroup (p :: tl) c = if p.1 = c then some p.2 else lookupGroup tl c
        from lookupGroup_cons p tl c]
    rw [show lookupGroup (p :: tl) ck = if p.1 = ck then some p.2 else lookupGroup tl ck
        from lookupGroup_cons p tl ck]
    rw [ih]
    by_cases hpc : p.1 = c <;> by_cases hck : ck = c <;>
      by_cases hp : p.1 = ck <;> simp_all

theorem lookupGroup_append_single (gs : List (CK × List (PendingRequest K)))
    (c ck : CK) (g : List (PendingRequest K)) :
    lookupGroup (gs ++ [(c, g)]) ck =
      match lookupGroup gs ck with
      | some g0 => some g0
      | none => if ck = c then some g else none := by
  induction gs with
  | nil =>
    by_cases h : ck = c
    · simp [lookupGroup, h, List.find?]
    · have : ¬(c = ck) := fun hh => h hh.symm
      simp [lookupGroup, List.find?, this, h]
  | cons p tl ih =>
    rw [List.cons_append, lookupGroup_cons, lookupGroup_cons]
    by_cases hp : p.1 = ck
    · simp [hp]
    · simp only [hp, if_false]
      exact ih

theorem lookupGroup_eq_none_iff (gs : List (CK × List (PendingRequest K)))
    (ck : CK) : lookupGroup gs ck = none ↔ ∀ p ∈ gs, p.1 ≠ ck := by
  simp [lookupGroup, List.find?_eq_none]

theorem mem_fst_iff_lookupGroup (gs : List (CK × List (PendingRequest K)))
    (ck : CK) : ck ∈ gs.map (·.1) ↔ lookupGroup gs ck ≠ none := by
  rw [Ne, lookupGroup_eq_none_iff]
  constructor
  · intro hmem hall
    obtain ⟨p, hp, he⟩ := List.mem_map.mp hmem
    exact hall p hp he
  · intro h
    by_contra hmem
    exact h (fun p hp he => hmem (List.mem_map.mpr ⟨p, hp, he⟩))

theorem pushToGroup_fst (gs : List (CK × List (PendingRequest K))) (c : CK)
    (r : PendingRequest K) : (pushToGroup gs c r).map (·.1) = gs.map (·.1) := by
  simp only [pushToGroup, List.map_map]
  apply List.map_congr_left
  intro p _
  by_cases h : p.1 = c <;> simp [h]

theorem dedupSeen_congr (keyFn : K → CK) (s1 s2 : List CK)
    (h : ∀ c, c ∈ s1 ↔ c ∈ s2) (ks : List K) :
    dedupSeen keyFn s1 ks = dedupSeen keyFn s2 ks := by
  induction ks generalizing s1 s2 with
  | nil => rfl
  | cons k ks ih =>
    by_cases hk : keyFn k ∈ s1
    · simp only [dedupSeen, if_pos hk, if_pos ((h _).mp hk)]
      exact ih s1 s2 h
    · have hk2 : keyFn k ∉ s2 := fun hh => hk ((h _).mpr hh)
      simp only [dedupSeen, if_neg hk, if_neg hk2]
      refine congrArg (k :: ·) (ih _ _ ?_)
      intro c
      simp only [List.mem_cons]
      exact or_congr Iff.rfl (h c)

theorem dedupByNormalized_nil (keyFn : K → CK) :
    dedupByNormalized keyFn [] = [] := by
  rw [dedupByNormalized]

theorem dedupByNormalized_cons (keyFn : K → CK) (k : K) (ks : List K) :
    dedupByNormalized keyFn (k :: ks)
      = k :: dedupByNormalized keyFn (ks.filter (fun x => decide (keyFn x ≠ keyFn k))) := by
  rw [dedupByNormalized]

theorem dedupSeen_eq (keyFn : K → CK) (seen : List CK) (ks : List K) :
    dedupSeen keyFn seen ks
      = dedupByNormalized keyFn (ks.filter (fun k => decide (keyFn k ∉ seen))) := by
  induction ks generalizing seen with
  | nil => simp [dedupSeen, dedupByNormalized_nil]
  | cons k ks ih =>
    by_cases h : keyFn k ∈ seen
    · simp only [dedupSeen, if_pos h, List.filter_cons, decide_eq_true_eq]
      rw [if_neg (by simp [h])]
      exact ih seen
    · simp only [dedupSeen, if_neg h, List.filter_cons]
      rw [if_pos (by simp [h])]
      rw [dedupByNormalized_cons, ih (keyFn k :: seen), List.filter_filter]
      refine congrArg (k :: ·) (congrArg _ (List.filter_congr ?_))
      intro x _
      by_cases h1 : keyFn x = keyFn k <;> by_cases h2 : keyFn x ∈ seen <;>
        simp [h1, h2]

theorem foldl_groupStep_uniqueKeys (keyFn : K → CK)
    (chunk : List (PendingRequest K)) (acc : Grouping K CK) :
    (chunk.foldl (groupStep keyFn) acc).uniqueKeys
      = acc.uniqueKeys ++ dedupSeen keyFn (acc.keyToRequests.map (·.1))
          ((activeOf chunk).map (·.key)) := by
  induction chunk generalizing acc with
  | nil => simp [activeOf, dedupSeen]
  | cons r rest ih =>
    by_cases hab : r.aborted
    · have hstep : groupStep keyFn acc r = acc := by simp [groupStep, hab]
      rw [List.foldl_cons, hstep, ih]
      have hact : activeOf (r :: rest) = activeOf rest := by simp [activeOf, hab]
      rw [hact]
    · have hact : activeOf (r :: rest) = r :: activeOf rest := by
        simp [activeOf, hab]
      rw [List.foldl_cons, hact]
      cases hlk : lookupGroup acc.keyToRequests (keyFn r.key) with
      | some g =>
        have hstep : groupStep keyFn acc r
            = ⟨pushToGroup acc.keyToRequests (keyFn r.key) r, acc.uniqueKeys⟩ := by
          simp [groupStep, hab, hlk]
        rw [hstep, ih]
        have hmem : keyFn r.key ∈ acc.keyToRequests.map (·.1) :=
          (mem_fst_iff_lookupGroup _ _).mpr (by rw [hlk]; exact fun h => Option.noConfusion h)
        simp only [List.map_cons]
        rw [pushToGroup_fst]
        simp [dedupSeen, hmem]
      | none =>
        have hstep : groupStep keyFn acc r
            = ⟨acc.keyToRequests ++ [(keyFn r.key, [r])], acc.uniqueKeys ++ [r.key]⟩ := by
          simp [groupStep, hab, hlk]
        rw [hstep, ih]
        have hnmem : keyFn r.key ∉ acc.keyToRequests.map (·.1) := by
          rw [mem_fst_iff_lookupGroup, hlk]
          simp
        simp only [List.map_cons, List.map_append, List.map_cons, List.map_nil]
        rw [dedupSeen_congr keyFn (acc.keyToRequests.map (·.1) ++ [keyFn r.key])
            (keyFn r.key :: acc.keyToRequests.map (·.1))
            (by intro c; simp [List.mem_append, List.mem_cons, or_comm])]
        simp [dedupSeen, hnmem]

theorem buildGroups_uniqueKeys (keyFn : K → CK) (chunk : List (PendingRequest K)) :
    (buildGroups keyFn chunk).uniqueKeys
      = dedupByNormalized keyFn ((activeOf chunk).map (·.key)) := by
  rw [buildGroups, foldl_groupStep_uniqueKeys]
  simp [dedupSeen_eq]

theorem classReqs_cons_aborted (keyFn : K → CK) (r : PendingRequest K)
    (rest : List (PendingRequest K)) (ck : CK) (hab : r.aborted = true) :
    classReqs keyFn (r :: rest) ck = classReqs keyFn rest ck := by
  simp [classReqs, activeOf, hab]

theorem classReqs_cons_active (keyFn : K → CK) (r : PendingRequest K)
    (rest : List (PendingRequest K)) (ck : CK) (hab : r.aborted = false) :
    classReqs keyFn (r :: rest) ck
      = if keyFn r.key = ck then r :: classReqs keyFn rest ck
        else classReqs keyFn rest ck := by
  by_cases h : keyFn r.key = ck <;>
    simp [classReqs, activeOf, hab, h, List.filter_cons]

theorem foldl_groupStep_lookup (keyFn : K → CK)
    (chunk : List (PendingRequest K)) (acc : Grouping K CK) (ck : CK) :
    lookupGroup (chunk.foldl (groupStep keyFn) acc).keyToRequests ck
      = optAppend (lookupGroup acc.keyToRequests ck) (classReqs keyFn chunk ck) := by
  induction chunk generalizing acc with
  | nil =>
    simp only [List.foldl_nil, classReqs, activeOf, List.filter_nil]
    cases lookupGroup acc.keyToRequests ck <;> simp [optAppend]
  | cons r rest ih =>
    by_cases hab : r.aborted
    · have hstep : groupStep keyFn acc r = acc := by simp [groupStep, hab]
      rw [List.foldl_cons, hstep, ih, classReqs_cons_aborted keyFn r rest ck hab]
    · have hab' : r.aborted = false := by simpa using hab
      rw [List.foldl_cons, classReqs_cons_active keyFn r rest ck hab']
      cases hlk : lookupGroup acc.keyToRequests (keyFn r.key) with
      | some g0 =>
        have hstep : groupStep keyFn acc r
            = ⟨pushToGroup acc.keyToRequests (keyFn r.key) r, acc.uniqueKeys⟩ := by
          simp [groupStep, hab, hlk]
        rw [hstep, ih]
        simp only [lookupGroup_pushToGroup]
        by_cases hck : ck = keyFn r.key
        · subst hck
          rw [if_pos rfl, if_pos rfl, hlk]
          simp [optAppend]
        · have hck' : ¬(keyFn r.key = ck) := fun h => hck h.symm
          rw [if_neg hck, if_neg hck']
      | none =>
        have hstep : groupStep keyFn acc r
            = ⟨acc.keyToRequests ++ [(keyFn r.key, [r])], acc.uniqueKeys ++ [r.key]⟩ := by
          simp [groupStep, hab, hlk]
        rw [hstep, ih]
        simp only [lookupGroup_append_single]
        by_cases hck : ck = keyFn r.key
        · subst hck
          rw [hlk, if_pos rfl, if_pos rfl]
          simp [optAppend]
        · have hck' : ¬(keyFn r.key = ck) := fun h => hck h.symm
          rw [if_neg hck']
          cases hl2 : lookupGroup acc.keyToRequests ck <;> simp [hl2, hck]

theorem buildGroups_lookup (keyFn : K → CK) (chunk : List (PendingRequest K))
    (ck : CK) :
    lookupGroup (buildGroups keyFn chunk).keyToRequests ck
      = if (classReqs keyFn chunk ck).isEmpty then none
        else some (classReqs keyFn chunk ck) := by
  rw [buildGroups, foldl_groupStep_lookup]
  have : lookupGroup ((⟨[], []⟩ : Grouping K CK)).keyToRequests ck = none := rfl
  rw [this]
  rfl

end GroupingLemmas

section DedupLemmas

variable {K CK : Type} [DecidableEq CK]

theorem dedupByNormalized_subset (keyFn : K → CK) (ks : List K) :
    ∀ k ∈ dedupByNormalized keyFn ks, k ∈ ks := by
  generalize hn : ks.length = n
  induction n using Nat.strong_induction_on generalizing ks with
  | _ n ih =>
    cases ks with
    | nil => simp [dedupByNormalized_nil]
    | cons k0 ks =>
      rw [dedupByNormalized_cons]
      intro k hk
      rcases List.mem_cons.mp hk with h | h
      · exact h ▸ List.mem_cons_self _ _
      · have hlt : (ks.filter (fun x => decide (keyFn x ≠ keyFn k0))).length < n := by
          have := List.length_filter_le (fun x => decide (keyFn x ≠ keyFn k0)) ks
          simp only [List.length_cons] at hn
          omega
        have hmem := ih _ hlt _ rfl k h
        exact List.mem_cons_of_mem _ (List.mem_of_mem_filter hmem)

theorem dedupByNormalized_countP_le_one (keyFn : K → CK) (ks : List K) (c : CK) :
    (dedupByNormalized keyFn ks).countP (fun k => decide (keyFn k = c)) ≤ 1 := by
  generalize hn : ks.length = n
  induction n using Nat.strong_induction_on generalizing ks with
  | _ n ih =>
    cases ks with
    | nil => simp [dedupByNormalized_nil]
    | cons k0 ks =>
      rw [dedupByNormalized_cons, List.countP_cons]
      have hlt : (ks.filter (fun x => decide (keyFn x ≠ keyFn k0))).length < n := by
        have := List.length_filter_le (fun x => decide (keyFn x ≠ keyFn k0)) ks
        simp only [List.length_cons] at hn
        omega
      by_cases hc : keyFn k0 = c
      · have hzero : (dedupByNormalized keyFn
            (ks.filter (fun x => decide (keyFn x ≠ keyFn k0)))).countP
            (fun k => decide (keyFn k = c)) = 0 := by
          rw [List.countP_eq_zero]
          intro k hk
          have hmem := dedupByNormalized_subset keyFn _ k hk
          have hne := List.of_mem_filter hmem
          simp only [decide_eq_true_eq] at hne ⊢
          rw [← hc]
          exact hne
        rw [hzero]
        split <;> omega
      · simp only [decide_eq_true_eq, hc, if_false, Nat.add_zero]
        exact ih _ hlt _ rfl

theorem dedupByNormalized_class_covered (keyFn : K → CK) (ks : List K) :
    ∀ k' ∈ ks, ∃ k ∈ dedupByNormalized keyFn ks, keyFn k = keyFn k' := by
  generalize hn : ks.length = n
  induction n using Nat.strong_induction_on generalizing ks with
  | _ n ih =>
    cases ks with
    | nil => simp
    | cons k0 ks =>
      intro k' hk'
      rw [dedupByNormalized_cons]
      rcases List.mem_cons.mp hk' with h | h
      · exact ⟨k0, List.mem_cons_self _ _, by rw [h]⟩
      · by_cases hc : keyFn k' = keyFn k0
        · exact ⟨k0, List.mem_cons_self _ _, hc.symm⟩
        · have hlt : (ks.filter (fun x => decide (keyFn x ≠ keyFn k0))).length < n := by
            have := List.length_filter_le (fun x => decide (keyFn x ≠ keyFn k0)) ks
            simp only [List.length_cons] at hn
            omega
          have hmem : k' ∈ ks.filter (fun x => decide (keyFn x ≠ keyFn k0)) :=
            List.mem_filter.mpr ⟨h, by simpa using hc⟩
          obtain ⟨k, hk, he⟩ := ih _ hlt _ rfl k' hmem
          exact ⟨k, List.mem_cons_of_mem _ hk, he⟩

theorem dedupByNormalized_length_le (keyFn : K → CK) (ks : List K) :
    (dedupByNormalized keyFn ks).length ≤ ks.length := by
  generalize hn : ks.length = n
  induction n using Nat.strong_induction_on generalizing ks with
  | _ n ih =>
    cases ks with
    | nil => simp [dedupByNormalized_nil]
    | cons k0 ks =>
      rw [dedupByNormalized_cons]
      have hle := List.length_filter_le (fun x => decide (keyFn x ≠ keyFn k0)) ks
      have hlt : (ks.filter (fun x => decide (keyFn x ≠ keyFn k0))).length < n := by
        simp only [List.length_cons] at hn
        omega
      have := ih _ hlt _ rfl
      simp only [List.length_cons]
      omega

theorem activeOf_eq_self {l : List (PendingRequest K)}
    (h : ∀ r ∈ l, r.aborted = false) : activeOf l = l := by
  induction l with
  | nil => rfl
  | cons r rest ih =>
    have hr := h r (List.mem_cons_self _ _)
    simp only [activeOf, List.filter_cons, hr, Bool.not_false, if_pos rfl]
    exact congrArg (r :: ·) (ih (fun x hx => h x (List.mem_cons_of_mem _ hx)))

theorem flatMap_congr_mem {α β : Type} (l : List α) (f g : α → List β)
    (h : ∀ a ∈ l, f a = g a) : l.flatMap f = l.flatMap g := by
  induction l with
  | nil => rfl
  | cons a l ih =>
    simp only [List.flatMap_cons, h a (List.mem_cons_self a l)]
    exact congrArg _ (ih (fun b hb => h b (List.mem_cons_of_mem _ hb)))

theorem dedup_flatMap_filter_perm (keyFn : K → CK)
    (l : List (PendingRequest K)) :
    ((dedupByNormalized keyFn (l.map (·.key))).flatMap
      (fun k => l.filter (fun r => decide (keyFn r.key = keyFn k)))).Perm l := by
  generalize hn : l.length = n
  induction n using Nat.strong_induction_on generalizing l with
  | _ n ih =>
    cases l with
    | nil => simp [dedupByNormalized_nil]
    | cons r rest =>
      have hfm : ((rest.map (·.key)).filter (fun x => decide (keyFn x ≠ keyFn r.key)))
          = (rest.filter (fun x => decide (keyFn x.key ≠ keyFn r.key))).map (·.key) := by
        rw [List.filter_map]
        rfl
      rw [List.map_cons, dedupByNormalized_cons, hfm, List.flatMap_cons]
      have hhead : (r :: rest).filter (fun x => decide (keyFn x.key = keyFn r.key))
          = r :: rest.filter (fun x => decide (keyFn x.key = keyFn r.key)) := by
        simp [List.filter_cons]
      have htail : (dedupByNormalized keyFn
              ((rest.filter (fun x => decide (keyFn x.key ≠ keyFn r.key))).map (·.key))).flatMap
            (fun k => (r :: rest).filter (fun x => decide (keyFn x.key = keyFn k)))
          = (dedupByNormalized keyFn
              ((rest.filter (fun x => decide (keyFn x.key ≠ keyFn r.key))).map (·.key))).flatMap
            (fun k => (rest.filter (fun x => decide (keyFn x.key ≠ keyFn r.key))).filter
              (fun x => decide (keyFn x.key = keyFn k))) := by
        apply flatMap_congr_mem
        intro k hk
        have hkmem := dedupByNormalized_subset keyFn _ k hk
        obtain ⟨x, hx, hxk⟩ := List.mem_map.mp hkmem
        have hxne : keyFn x.key ≠ keyFn r.key := by
          have := List.of_mem_filter hx
          simpa using this
        have hkne : keyFn k ≠ keyFn r.key := by
          rw [← hxk]
          exact hxne
        have hpred : decide (keyFn r.key = keyFn k) = false := by
          simp only [decide_eq_false_iff_not]
          exact fun h => hkne h.symm
        rw [List.filter_cons, hpred]
        simp only [Bool.false_eq_true, if_false]
        rw [List.filter_filter]
        apply List.filter_congr
        intro y _
        by_cases hy : keyFn y.key = keyFn k
        · simp [hy, hkne]
        · simp [hy]
      rw [htail, hhead]
      have hperm2 : ((dedupByNormalized keyFn
            ((rest.filter (fun x => decide (keyFn x.key ≠ keyFn r.key))).map (·.key))).flatMap
          (fun k => (rest.filter (fun x => decide (keyFn x.key ≠ keyFn r.key))).filter
            (fun x => decide (keyFn x.key = keyFn k)))).Perm
          (rest.filter (fun x => decide (keyFn x.key ≠ keyFn r.key))) := by
        have hlt : (rest.filter (fun x => decide (keyFn x.key ≠ keyFn r.key))).length < n := by
          have := List.length_filter_le (fun x => decide (keyFn x.key ≠ keyFn r.key)) rest
          simp only [List.length_cons] at hn
          omega
        exact ih _ hlt _ rfl
      refine List.Perm.trans (List.Perm.append_left _ hperm2) ?_
      rw [List.cons_append]
      apply List.Perm.cons
      have hre : rest.filter (fun x => decide (keyFn x.key ≠ keyFn r.key))
          = rest.filter (fun x => !decide (keyFn x.key = keyFn r.key)) := by
        apply List.filter_congr
        intro y _
        by_cases hy : keyFn y.key = keyFn r.key <;> simp [hy]
      rw [hre]
      exact List.filter_append_perm _ rest

end DedupLemmas

section ChunkLemmas

variable {α : Type}

theorem sliceChunks_nil (m : Nat) (hm : m ≠ 0) :
    sliceChunks m ([] : List α) = [] := by
  rw [sliceChunks]
  simp [hm]

theorem sliceChunks_cons (m : Nat) (hm : m ≠ 0) (x : α) (xs : List α) :
    sliceChunks m (x :: xs)
      = (x :: xs).take m :: sliceChunks m ((x :: xs).drop m) := by
  rw [sliceChunks]
  simp [hm]

theorem sliceChunks_flatten (m : Nat) (hm : m ≠ 0) (l : List α) :
    (sliceChunks m l).flatten = l := by
  generalize hn : l.length = n
  induction n using Nat.strong_induction_on generalizing l with
  | _ n ih =>
    cases l with
    | nil => simp [sliceChunks_nil m hm]
    | cons x xs =>
      rw [sliceChunks_cons m hm, List.flatten_cons]
      have hlt : ((x :: xs).drop m).length < n := by
        simp only [List.length_drop, List.length_cons] at *
        omega
      rw [ih _ hlt _ rfl]
      exact List.take_append_drop m (x :: xs)

theorem sliceChunks_length (m : Nat) (hm : 0 < m) (l : List α) :
    (sliceChunks m l).length = (l.length + m - 1) / m := by
  generalize hn : l.length = n
  induction n using Nat.strong_induction_on generalizing l with
  | _ n ih =>
    cases l with
    | nil =>
      rw [sliceChunks_nil m (Nat.pos_iff_ne_zero.mp hm)]
      simp only [List.length_nil, List.length_nil] at hn ⊢
      rw [Nat.div_eq_of_lt (by omega)]
    | cons x xs =>
      rw [sliceChunks_cons m (Nat.pos_iff_ne_zero.mp hm), List.length_cons]
      have hlt : ((x :: xs).drop m).length < n := by
        simp only [List.length_drop, List.length_cons] at *
        omega
      rw [ih _ hlt _ rfl]
      simp only [List.length_drop, List.length_cons] at hn ⊢
      subst hn
      by_cases hle : xs.length + 1 ≤ m
      · have h1 : xs.length + 1 - m = 0 := by omega
        have hdiv1 : (0 + m - 1) / m = 0 := Nat.div_eq_of_lt (by omega)
        have hdiv2 : (xs.length + 1 + m - 1) / m = 1 :=
          Nat.div_eq_of_lt_le (by omega) (by omega)
        rw [h1, hdiv1, hdiv2]
      · have h2 : xs.length + 1 + m - 1 = (xs.length) + m := by omega
        have h3 : xs.length + 1 - m + m - 1 = (xs.length - m) + m := by omega
        rw [h2, h3, Nat.add_div_right _ hm, Nat.add_div_right _ hm]
        have h4 : xs.length = (xs.length - m) + m := by omega
        rw [show xs.length / m = ((xs.length - m) + m) / m from by rw [← h4]]
        rw [Nat.add_div_right _ hm]

theorem sliceChunks_mem_length (m : Nat) (l : List α) :
    ∀ c ∈ sliceChunks m l, 0 < m → c.length ≤ m := by
  generalize hn : l.length = n
  induction n using Nat.strong_induction_on generalizing l with
  | _ n ih =>
    cases l with
    | nil =>
      intro c hc hm
      rw [sliceChunks_nil m (Nat.pos_iff_ne_zero.mp hm)] at hc
      simp at hc
    | cons x xs =>
      intro c hc hm
      rw [sliceChunks_cons m (Nat.pos_iff_ne_zero.mp hm)] at hc
      rcases List.mem_cons.mp hc with h | h
      · rw [h]
        exact List.length_take_le m (x :: xs)
      · have hlt : ((x :: xs).drop m).length < n := by
          simp only [List.length_drop, List.length_cons] at *
          omega
        exact ih _ hlt _ rfl c h hm

theorem sliceChunks_mem_ne_nil (m : Nat) (l : List α) :
    ∀ c ∈ sliceChunks m l, 0 < m → c ≠ [] := by
  generalize hn : l.length = n
  induction n using Nat.strong_induction_on generalizing l with
  | _ n ih =>
    cases l with
    | nil =>
      intro c hc hm
      rw [sliceChunks_nil m (Nat.pos_iff_ne_zero.mp hm)] at hc
      simp at hc
    | cons x xs =>
      intro c hc hm
      rw [sliceChunks_cons m (Nat.pos_iff_ne_zero.mp hm)] at hc
      rcases List.mem_cons.mp hc with h | h
      · rw [h]
        cases m with
        | zero => omega
        | succ m => simp [List.take_cons]
      · have hlt : ((x :: xs).drop m).length < n := by
          simp only [List.length_drop, List.length_cons] at *
          omega
        exact ih _ hlt _ rfl c h hm

theorem sliceChunks_mem_sublist (m : Nat) (l : List α) :
    ∀ c ∈ sliceChunks m l, ∀ x ∈ c, x ∈ l := by
  generalize hn : l.length = n
  induction n using Nat.strong_induction_on generalizing l with
  | _ n ih =>
    intro c hc x hx
    by_cases hm : m = 0
    · have h0 : sliceChunks m l = [l] := by
        rw [sliceChunks.eq_def, dif_pos hm]
      rw [h0] at hc
      simp only [List.mem_singleton] at hc
      exact hc ▸ hx
    cases l with
    | nil =>
      rw [sliceChunks_nil m hm] at hc
      simp at hc
    | cons y ys =>
      rw [sliceChunks_cons m hm] at hc
      rcases List.mem_cons.mp hc with h | h
      · exact List.mem_of_mem_take (h ▸ hx)
      · have hlt : ((y :: ys).drop m).length < n := by
          simp only [List.length_drop, List.length_cons] at *
          omega
        exact List.mem_of_mem_drop (ih _ hlt _ rfl c h x hx)

end ChunkLemmas

section SettleLemmas

variable {K V CK : Type} [DecidableEq CK] [DecidableEq K]

omit [DecidableEq K] in
theorem classReqs_nonempty_of_mem_dedup (keyFn : K → CK)
    (chunk : List (PendingRequest K)) (k : K)
    (hk : k ∈ dedupByNormalized keyFn ((activeOf chunk).map (·.key))) :
    ¬(classReqs keyFn chunk (keyFn k)).isEmpty := by
  have hmem := dedupByNormalized_subset keyFn _ k hk
  obtain ⟨r, hr, hrk⟩ := List.mem_map.mp hmem
  have : r ∈ classReqs keyFn chunk (keyFn k) :=
    List.mem_filter.mpr ⟨hr, by simp [hrk]⟩
  intro hempty
  rw [List.isEmpty_iff] at hempty
  rw [hempty] at this
  exact (List.not_mem_nil r) this

/-- Decomposition of the indexed-strategy success path of `processChunk`
(batch.ts lines 206-224): one group settlement per deduplicated key, in
first-occurrence order, each settled from the lookup of its stringified
representative key. -/
theorem processChunkSettlements_indexed (keyFn : K → CK) (strKey : K → String)
    (chunk : List (PendingRequest K)) (abortedAfter : Nat → Bool)
    (results : ResolverResult V) :
    processChunkSettlements keyFn strKey MatchStrategy.indexed chunk abortedAfter
        (Except.ok results) false
      = (dedupByNormalized keyFn ((activeOf chunk).map (·.key))).flatMap
          (fun k => settleGroup abortedAfter (classReqs keyFn chunk (keyFn k))
            (jsIndex results (strKey k)) ("No result for key: " ++ strKey k)) := by
  simp only [processChunkSettlements, normalizeMatch, buildGroups_uniqueKeys]
  by_cases hU : (dedupByNormalized keyFn ((activeOf chunk).map (·.key))).isEmpty
  · rw [if_pos hU, List.isEmpty_iff.mp hU]
    rfl
  · rw [if_neg hU]
    apply flatMap_congr_mem
    intro k hk
    rw [buildGroups_lookup, if_neg (classReqs_nonempty_of_mem_dedup keyFn chunk k hk)]

/-- Decomposition of the array success path for a function-based match
strategy (batch.ts lines 225-251). -/
theorem processChunkSettlements_custom_arr (keyFn : K → CK) (strKey : K → String)
    (f : List V → K → Option V) (chunk : List (PendingRequest K))
    (abortedAfter : Nat → Bool) (xs : List V) :
    processChunkSettlements keyFn strKey (MatchStrategy.custom f) chunk abortedAfter
        (Except.ok (ResolverResult.arr xs)) false
      = (dedupByNormalized keyFn ((activeOf chunk).map (·.key))).flatMap
          (fun k => settleGroup abortedAfter (classReqs keyFn chunk (keyFn k))
            (f xs k) ("No result for key: " ++ strKey k)) := by
  simp only [processChunkSettlements, normalizeMatch, buildGroups_uniqueKeys]
  by_cases hU : (dedupByNormalized keyFn ((activeOf chunk).map (·.key))).isEmpty
  · rw [if_pos hU, List.isEmpty_iff.mp hU]
    rfl
  · rw [if_neg hU]
    apply flatMap_congr_mem
    intro k hk
    rw [buildGroups_lookup, if_neg (classReqs_nonempty_of_mem_dedup keyFn chunk k hk)]

omit [DecidableEq K] in
theorem buildGroups_fst_nodup (keyFn : K → CK) (chunk : List (PendingRequest K)) :
    ((buildGroups keyFn chunk).keyToRequests.map (·.1)).Nodup := by
  suffices h : ∀ (acc : Grouping K CK), (acc.keyToRequests.map (·.1)).Nodup →
      ((chunk.foldl (groupStep keyFn) acc).keyToRequests.map (·.1)).Nodup by
    exact h ⟨[], []⟩ (by simp)
  induction chunk with
  | nil => intro acc hacc; exact hacc
  | cons r rest ih =>
    intro acc hacc
    rw [List.foldl_cons]
    by_cases hab : r.aborted
    · rw [show groupStep keyFn acc r = acc from by simp [groupStep, hab]]
      exact ih acc hacc
    · cases hlk : lookupGroup acc.keyToRequests (keyFn r.key) with
      | some g =>
        rw [show groupStep keyFn acc r
            = ⟨pushToGroup acc.keyToRequests (keyFn r.key) r, acc.uniqueKeys⟩
          from by simp [groupStep, hab, hlk]]
        apply ih
        rw [pushToGroup_fst]
        exact hacc
      | none =>
        rw [show groupStep keyFn acc r
            = ⟨acc.keyToRequests ++ [(keyFn r.key, [r])], acc.uniqueKeys ++ [r.key]⟩
          from by simp [groupStep, hab, hlk]]
        apply ih
        simp only [List.map_append, List.map_cons, List.map_nil]
        rw [List.nodup_append]
        refine ⟨hacc, List.nodup_singleton _, ?_⟩
        intro a ha
        simp only [List.mem_singleton]
        intro he
        subst he
        have := (mem_fst_iff_lookupGroup acc.keyToRequests (keyFn r.key)).mp ha
        exact this hlk

omit [DecidableEq K] in
theorem lookupGroup_of_mem_nodup (gs : List (CK × List (PendingRequest K)))
    (hnd : (gs.map (·.1)).Nodup) (ck : CK) (g : List (PendingRequest K))
    (hmem : (ck, g) ∈ gs) : lookupGroup gs ck = some g := by
  induction gs with
  | nil => simp at hmem
  | cons p tl ih =>
    rw [lookupGroup_cons]
    rcases List.mem_cons.mp hmem with h | h
    · rw [← h]
      simp
    · have hne : p.1 ≠ ck := by
        simp only [List.map_cons, List.nodup_cons] at hnd
        intro he
        apply hnd.1
        rw [he]
        exact List.mem_map.mpr ⟨(ck, g), h, rfl⟩
      rw [if_neg hne]
      apply ih _ h
      simp only [List.map_cons, List.nodup_cons] at hnd
      exact hnd.2

omit [DecidableEq K] in
/-- Every group stored by the grouping loop is exactly the class list of
its normalized key. -/
theorem buildGroups_group_eq_classReqs (keyFn : K → CK)
    (chunk : List (PendingRequest K)) (ck : CK) (g : List (PendingRequest K))
    (hmem : (ck, g) ∈ (buildGroups keyFn chunk).keyToRequests) :
    g = classReqs keyFn chunk ck := by
  have hl := lookupGroup_of_mem_nodup _ (buildGroups_fst_nodup keyFn chunk) ck g hmem
  rw [buildGroups_lookup] at hl
  by_cases he : (classReqs keyFn chunk ck).isEmpty
  · rw [if_pos he] at hl
    exact absurd hl (by simp)
  · rw [if_neg he] at hl
    exact (Option.some_inj.mp hl).symm

omit [DecidableEq K] in
theorem mem_flatten_groups (keyFn : K → CK) (chunk : List (PendingRequest K))
    (r : PendingRequest K) :
    r ∈ ((buildGroups keyFn chunk).keyToRequests.map (·.2)).flatten
      ↔ r ∈ activeOf chunk := by
  constructor
  · intro h
    obtain ⟨g, hg, hrg⟩ := List.mem_flatten.mp h
    obtain ⟨p, hp, hpg⟩ := List.mem_map.mp hg
    have := buildGroups_group_eq_classReqs keyFn chunk p.1 p.2 hp
    rw [hpg] at this
    rw [this] at hrg
    exact List.mem_of_mem_filter hrg
  · intro h
    have hcls : r ∈ classReqs keyFn chunk (keyFn r.key) :=
      List.mem_filter.mpr ⟨h, by simp⟩
    have hlk : lookupGroup (buildGroups keyFn chunk).keyToRequests (keyFn r.key)
        = some (classReqs keyFn chunk (keyFn r.key)) := by
      rw [buildGroups_lookup]
      rw [if_neg]
      intro he
      rw [List.isEmpty_iff] at he
      rw [he] at hcls
      exact (List.not_mem_nil r) hcls
    obtain ⟨p, hp, hpk, hpg⟩ : ∃ p ∈ (buildGroups keyFn chunk).keyToRequests,
        p.1 = keyFn r.key ∧ p.2 = classReqs keyFn chunk (keyFn r.key) := by
      unfold lookupGroup at hlk
      cases hf : (buildGroups keyFn chunk).keyToRequests.find?
          (fun p => decide (p.1 = keyFn r.key)) with
      | none => rw [hf] at hlk; exact absurd hlk (by simp)
      | some p =>
        rw [hf] at hlk
        refine ⟨p, List.mem_of_find?_eq_some hf, ?_, ?_⟩
        · have := List.find?_some hf
          simpa using this
        · simpa using hlk
    apply List.mem_flatten.mpr
    refine ⟨p.2, List.mem_map.mpr ⟨p, hp, rfl⟩, ?_⟩
    rw [hpg]
    exact hcls

end SettleLemmas

section GuardLemmas

variable {V : Type}

theorem applyEvent_settled (s : ReqState V) (hs : s.settled = true)
    (ev : SettleEvent V) :
    (applyEvent s ev).1.settled = true ∧ (applyEvent s ev).1.outcome = s.outcome
      ∧ (applyEvent s ev).2 = [] := by
  cases ev with
  | resolveCall v => simp [applyEvent, deliverResolve, hs]
  | rejectCall e => simp [applyEvent, deliverReject, hs]
  | tokenAbort => simp [applyEvent, deliverReject, hs]
  | batcherAbort =>
    by_cases ha : s.aborted <;> simp [applyEvent, deliverReject, hs, ha]

theorem applyEvent_unsettled (s : ReqState V) (hs : s.settled = false)
    (ev : SettleEvent V) :
    ((applyEvent s ev).2 = [] ∧ (applyEvent s ev).1.settled = false)
    ∨ ((applyEvent s ev).2.length = 1 ∧ (applyEvent s ev).1.settled = true) := by
  cases ev with
  | resolveCall v => right; simp [applyEvent, deliverResolve, hs]
  | rejectCall e => right; simp [applyEvent, deliverReject, hs]
  | tokenAbort => right; simp [applyEvent, deliverReject, hs]
  | batcherAbort =>
    by_cases ha : s.aborted
    · left; simp [applyEvent, ha, hs]
    · right; simp [applyEvent, deliverReject, hs, ha]

theorem runEvents_cons (s : ReqState V) (ev : SettleEvent V)
    (evs : List (SettleEvent V)) :
    runEvents s (ev :: evs)
      = ((runEvents (applyEvent s ev).1 evs).1,
         (applyEvent s ev).2 ++ (runEvents (applyEvent s ev).1 evs).2) := by
  suffices haux : ∀ (evs : List (SettleEvent V)) (t : ReqState V)
      (c : List (Settlement V)),
      evs.foldl (fun acc ev =>
        let step := applyEvent acc.1 ev
        (step.1, acc.2 ++ step.2)) (t, c)
      = ((runEvents t evs).1, c ++ (runEvents t evs).2) by
    rw [runEvents, List.foldl_cons]
    exact haux evs _ _
  intro evs
  induction evs with
  | nil => intro t c; simp [runEvents]
  | cons e tl ih =>
    intro t c
    rw [List.foldl_cons]
    rw [ih]
    have h2 : runEvents t (e :: tl)
        = ((runEvents (applyEvent t e).1 tl).1,
           (applyEvent t e).2 ++ (runEvents (applyEvent t e).1 tl).2) := by
      rw [runEvents, List.foldl_cons]
      have := ih (applyEvent t e).1 (applyEvent t e).2
      simpa [runEvents] using this
    rw [h2, List.append_assoc]

theorem runEvents_settled (s : ReqState V) (hs : s.settled = true)
    (evs : List (SettleEvent V)) :
    (runEvents s evs).1.outcome = s.outcome
      ∧ (runEvents s evs).1.settled = true ∧ (runEvents s evs).2 = [] := by
  induction evs generalizing s with
  | nil => exact ⟨rfl, hs, rfl⟩
  | cons ev evs ih =>
    rw [runEvents_cons]
    obtain ⟨h1, h2, h3⟩ := applyEvent_settled s hs ev
    obtain ⟨g1, g2, g3⟩ := ih _ h1
    exact ⟨g1.trans h2, g2, by simp [h3, g3]⟩

theorem runEvents_calls_le_one (s : ReqState V) (hs : s.settled = false)
    (evs : List (SettleEvent V)) : (runEvents s evs).2.length ≤ 1 := by
  induction evs generalizing s with
  | nil => simp [runEvents]
  | cons ev evs ih =>
    rw [runEvents_cons]
    rcases applyEvent_unsettled s hs ev with ⟨h1, h2⟩ | ⟨h1, h2⟩
    · rw [h1]
      simpa using ih _ h2
    · have := (runEvents_settled _ h2 evs).2.2
      simp [this, h1]

end GuardLemmas

section InFlightLemmas

variable {K : Type}

theorem markAborted_all_iff (reqs : List (PendingRequest K)) (rid : Nat) :
    ((markAborted reqs rid).all (·.aborted) = true)
      ↔ ∀ r ∈ markAborted reqs rid, r.aborted = true := by
  rw [List.all_eq_true]

theorem markAborted_mem_other (reqs : List (PendingRequest K)) (rid : Nat)
    (r : PendingRequest K) (hr : r ∈ reqs) (hne : r.rid ≠ rid) :
    r ∈ markAborted reqs rid := by
  have : (if r.rid = rid then { r with aborted := true } else r) = r := by
    rw [if_neg hne]
  rw [← this]
  exact List.mem_map.mpr ⟨r, hr, rfl⟩

end InFlightLemmas

section RegistryLemmas

variable {K CK V : Type}

theorem reqStateOf_eq_stateOf (st : BatcherState CK V) (rid : Nat) :
    reqStateOf st rid = stateOf st.reqs rid := rfl

theorem stateOf_cons (p : Nat × ReqState V) (m : List (Nat × ReqState V))
    (rid : Nat) :
    stateOf (p :: m) rid = if p.1 = rid then some p.2 else stateOf m rid := by
  by_cases h : p.1 = rid
  · simp [stateOf, List.find?_cons_of_pos, h]
  · simp [stateOf, List.find?_cons_of_neg, h]

theorem stateOf_updateReq (m : List (Nat × ReqState V)) (rid x : Nat)
    (f : ReqState V → ReqState V) :
    stateOf (updateReq m rid f) x
      = if x = rid then (stateOf m x).map f else stateOf m x := by
  induction m with
  | nil => by_cases h : x = rid <;> simp [updateReq, stateOf, h]
  | cons p tl ih =>
    have hu : updateReq (p :: tl) rid f
        = (if p.1 = rid then (p.1, f p.2) else p) :: updateReq tl rid f := by
      simp [updateReq]
    rw [hu, stateOf_cons, stateOf_cons]
    by_cases hpr : p.1 = rid <;> by_cases hx : x = rid <;>
      by_cases hpx : p.1 = x <;> simp_all [updateReq]

theorem stateOf_foldl_updateReq (L : List Nat) (m : List (Nat × ReqState V))
    (f : ReqState V → ReqState V) (hf : ∀ s, f (f s) = f s) (x : Nat) :
    stateOf (L.foldl (fun m rid => updateReq m rid f) m) x
      = if x ∈ L then (stateOf m x).map f else stateOf m x := by
  induction L generalizing m with
  | nil => simp
  | cons rid L ih =>
    rw [List.foldl_cons, ih]
    by_cases hx : x ∈ L
    · rw [if_pos hx, if_pos (List.mem_cons_of_mem _ hx), stateOf_updateReq]
      by_cases he : x = rid
      · rw [if_pos he]
        cases stateOf m x <;> simp [hf]
      · rw [if_neg he]
    · rw [if_neg hx, stateOf_updateReq]
      by_cases he : x = rid
      · rw [if_pos he, if_pos (by rw [he]; exact List.mem_cons_self _ _)]
      · rw [if_neg he, if_neg (by simp [List.mem_cons, he, hx])]

theorem rejectAsAborted_idem (s : ReqState V) :
    rejectAsAborted (rejectAsAborted s) = rejectAsAborted s := by
  by_cases h : s.aborted
  · simp [rejectAsAborted, h]
  · by_cases hs : s.settled <;>
      simp [rejectAsAborted, h, deliverReject, hs]

theorem rejectAsAborted_spec (s : ReqState V)
    (hinv : s.aborted = true → s.settled = true) :
    (rejectAsAborted s).aborted = true ∧ (rejectAsAborted s).settled = true
      ∧ (s.settled = true → (rejectAsAborted s).outcome = s.outcome)
      ∧ (s.settled = false
          → (rejectAsAborted s).outcome = some (Settlement.rejected JsError.abortError)) := by
  by_cases h : s.aborted
  · have hs := hinv h
    simp [rejectAsAborted, h, hs]
  · by_cases hs : s.settled <;>
      simp [rejectAsAborted, h, deliverReject, hs]

theorem abort_stateOf (st : BatcherState CK V) (x : Nat) :
    reqStateOf (abort st) x
      = if x ∈ st.queue ∨ x ∈ st.activeRequests
        then (reqStateOf st x).map rejectAsAborted
        else reqStateOf st x := by
  rw [reqStateOf_eq_stateOf, reqStateOf_eq_stateOf]
  show stateOf (st.activeRequests.foldl (fun m rid => updateReq m rid rejectAsAborted)
      (st.queue.foldl (fun m rid => updateReq m rid rejectAsAborted) st.reqs)) x = _
  rw [stateOf_foldl_updateReq _ _ _ rejectAsAborted_idem,
      stateOf_foldl_updateReq _ _ _ rejectAsAborted_idem]
  by_cases hq : x ∈ st.queue <;> by_cases ha : x ∈ st.activeRequests
  · rw [if_pos ha, if_pos hq, if_pos (Or.inl hq)]
    cases stateOf st.reqs x <;> simp [rejectAsAborted_idem]
  · rw [if_neg ha, if_pos hq, if_pos (Or.inl hq)]
  · rw [if_pos ha, if_neg hq, if_pos (Or.inr ha)]
  · rw [if_neg ha, if_neg hq, if_neg (by simp [hq, ha])]

theorem stateOf_append_single (m : List (Nat × ReqState V)) (rid : Nat)
    (s : ReqState V) (x : Nat) :
    stateOf (m ++ [(rid, s)]) x
      = match stateOf m x with
        | some t => some t
        | none => if x = rid then some s else none := by
  induction m with
  | nil =>
    by_cases h : x = rid
    · simp [stateOf, List.find?, h]
    · have : ¬(rid = x) := fun hh => h hh.symm
      simp [stateOf, List.find?, this, h]
  | cons p tl ih =>
    rw [List.cons_append, stateOf_cons, stateOf_cons]
    by_cases hp : p.1 = x
    · simp [hp]
    · simp only [hp, if_false]
      exact ih

end RegistryLemmas

section TimedLemmas

variable {K V : Type}

theorem foldl_rejStep_fulfilled (ps : List (Nat × Outcome V))
    (h : ∀ p ∈ ps, ∃ v, p.2 = Outcome.fulfilled v) (acc : Option (Nat × JsError)) :
    ps.foldl rejStep acc = acc := by
  induction ps generalizing acc with
  | nil => rfl
  | cons p ps ih =>
    obtain ⟨v, hv⟩ := h p (List.mem_cons_self _ _)
    rw [List.foldl_cons, show rejStep acc p = acc from by rw [rejStep, hv]]
    exact ih (fun q hq => h q (List.mem_cons_of_mem _ hq)) acc

theorem filterMap_outcome_values (ps : List (Nat × Outcome V)) (vs : List V)
    (h : ps.map (·.2) = vs.map Outcome.fulfilled) :
    ps.filterMap (fun p =>
      match p.2 with
      | .fulfilled v => some v
      | .rejected _ => none) = vs := by
  induction ps generalizing vs with
  | nil =>
    cases vs with
    | nil => rfl
    | cons v vs => simp at h
  | cons p ps ih =>
    cases vs with
    | nil => simp at h
    | cons v vs =>
      simp only [List.map_cons, List.cons.injEq] at h
      rw [List.filterMap_cons, h.1]
      exact congrArg (v :: ·) (ih vs h.2)

theorem promiseAllTimed_fulfilled (ps : List (Nat × Outcome V)) (vs : List V)
    (h : ps.map (·.2) = vs.map Outcome.fulfilled) :
    promiseAllTimed ps = ((ps.map (·.1)).foldr max 0, Outcome.fulfilled vs) := by
  have hall : ∀ p ∈ ps, ∃ v, p.2 = Outcome.fulfilled v := by
    intro p hp
    have hmem : p.2 ∈ ps.map (·.2) := List.mem_map.mpr ⟨p, hp, rfl⟩
    rw [h] at hmem
    obtain ⟨v, _, hv⟩ := List.mem_map.mp hmem
    exact ⟨v, hv.symm⟩
  rw [promiseAllTimed, firstRejection, foldl_rejStep_fulfilled ps hall none]
  rw [filterMap_outcome_values ps vs h]

theorem le_foldr_max (l : List Nat) : ∀ x ∈ l, x ≤ l.foldr max 0 := by
  induction l with
  | nil => simp
  | cons a l ih =>
    intro x hx
    rw [List.foldr_cons]
    rcases List.mem_cons.mp hx with h | h
    · rw [h]
      exact Nat.le_max_left _ _
    · exact Nat.le_trans (ih x h) (Nat.le_max_right _ _)

theorem foldl_rejStep_min (ps : List (Nat × Outcome V)) :
    ∀ (acc : Option (Nat × JsError)) (q : Nat × JsError),
      ps.foldl rejStep acc = some q →
      (∀ t2 e2, (t2, Outcome.rejected e2) ∈ ps → q.1 ≤ t2)
        ∧ (∀ q0, acc = some q0 → q.1 ≤ q0.1) := by
  induction ps with
  | nil =>
    intro acc q h
    refine ⟨by simp, ?_⟩
    intro q0 hq0
    rw [List.foldl_nil] at h
    rw [hq0] at h
    rw [Option.some_inj.mp h]
  | cons p ps ih =>
    intro acc q h
    rw [List.foldl_cons] at h
    obtain ⟨ih1, ih2⟩ := ih (rejStep acc p) q h
    constructor
    · intro t2 e2 hmem
      rcases List.mem_cons.mp hmem with he | he
      · subst he
        cases acc with
        | none => simpa using ih2 _ rfl
        | some q0 =>
          by_cases hlt : t2 < q0.1
          · have hstep : rejStep (some q0)
                ((t2, Outcome.rejected e2) : Nat × Outcome V) = some (t2, e2) := by
              simp [rejStep, hlt]
            simpa using ih2 _ hstep
          · have hstep : rejStep (some q0)
                ((t2, Outcome.rejected e2) : Nat × Outcome V) = some q0 := by
              simp [rejStep, hlt]
            have := ih2 _ hstep
            omega
      · exact ih1 t2 e2 he
    · intro q0 hq0
      subst hq0
      cases hp2 : p.2 with
      | fulfilled v =>
        have : rejStep (some q0) p = some q0 := by rw [rejStep, hp2]
        exact ih2 _ this
      | rejected e =>
        have hstep : rejStep (some q0) p
            = if p.1 < q0.1 then some (p.1, e) else some q0 := by
          rw [rejStep, hp2]
        by_cases hlt : p.1 < q0.1
        · rw [if_pos hlt] at hstep
          have := ih2 _ hstep
          simp only at this
          omega
        · rw [if_neg hlt] at hstep
          exact ih2 _ hstep

theorem promiseAllTimed_rejected (ps : List (Nat × Outcome V)) (q : Nat × JsError)
    (h : firstRejection ps = some q) :
    promiseAllTimed ps = (q.1, Outcome.rejected q.2)
      ∧ ∀ t2 e2, (t2, Outcome.rejected e2) ∈ ps → q.1 ≤ t2 := by
  constructor
  · rw [promiseAllTimed, h]
  · exact ((foldl_rejStep_min ps none q h).1)

theorem requestsOf_map_key (keys : List K) :
    (requestsOf keys).map (·.key) = keys := by
  simp only [requestsOf, List.map_map]
  have h : ((fun (r : PendingRequest K) => r.key)
      ∘ (fun (p : Nat × K) => (⟨p.1, p.2, false⟩ : PendingRequest K)))
      = Prod.snd := rfl
  rw [h]
  exact List.enum_map_snd keys

theorem requestsOf_length (keys : List K) :
    (requestsOf keys).length = keys.length := by
  simp [requestsOf]

end TimedLemmas

section MoreHelpers

variable {K V CK : Type} [DecidableEq CK] [DecidableEq K]

omit [DecidableEq K] in
theorem dedupByNormalized_ne_nil (keyFn : K → CK) (ks : List K) (h : ks ≠ []) :
    dedupByNormalized keyFn ks ≠ [] := by
  cases ks with
  | nil => exact absurd rfl h
  | cons k ks =>
    rw [dedupByNormalized_cons]
    simp

omit [DecidableEq CK] [DecidableEq K] in
theorem settleGroup_no_aborts (g : List (PendingRequest K)) (v : Option V)
    (m : String) :
    settleGroup (fun _ => false) g v m
      = g.map (fun r => (r.rid, settleValue v m)) := by
  simp only [settleGroup, Bool.false_eq_true, if_false]
  exact List.filterMap_eq_map _ ▸ rfl

theorem filterMap_eq_map_mem {α β : Type} (l : List α) (p : α → Option β)
    (g : α → β) (h : ∀ a ∈ l, p a = some (g a)) : l.filterMap p = l.map g := by
  induction l with
  | nil => rfl
  | cons a l ih =>
    rw [List.filterMap_cons, h a (List.mem_cons_self _ _), List.map_cons]
    exact congrArg _ (ih (fun b hb => h b (List.mem_cons_of_mem _ hb)))

omit [DecidableEq CK] [DecidableEq K] in
theorem mem_rejectRemaining (g : Grouping K CK) (ab : Nat → Bool) (e : JsError)
    (p : Nat × Settlement V) (hp : p ∈ rejectRemaining V ab g e) :
    p.2 = Settlement.rejected e := by
  obtain ⟨r, _, hpr⟩ := List.mem_filterMap.mp hp
  by_cases har : ab r.rid
  · rw [if_pos har] at hpr
    exact absurd hpr (by simp)
  · rw [if_neg har] at hpr
    rw [← Option.some_inj.mp hpr]

/-- The non-array branch for a function-based strategy (batch.ts lines
228-232 with the catch at 252-271): the whole chunk is rejected with one
`BatchError`. -/
theorem processChunkSettlements_custom_record (keyFn : K → CK)
    (strKey : K → String) (f : List V → K → Option V)
    (chunk : List (PendingRequest K)) (ab : Nat → Bool)
    (entries : List (String × V)) :
    processChunkSettlements keyFn strKey (MatchStrategy.custom f) chunk ab
        (Except.ok (ResolverResult.record entries)) false
      = if (buildGroups keyFn chunk).uniqueKeys.isEmpty then []
        else rejectRemaining V ab (buildGroups keyFn chunk)
          (JsError.batchError nonArrayMsg) := by
  rfl

theorem length_flatMap_map {α β γ : Type} (l : List α) (g : α → List β)
    (h : α → β → γ) :
    (l.flatMap (fun a => (g a).map (h a))).length = (l.flatMap g).length := by
  induction l with
  | nil => rfl
  | cons a l ih => simp [List.flatMap_cons, ih]

omit [DecidableEq CK] [DecidableEq K] in
theorem stateOf_mem (m : List (Nat × ReqState V)) (rid : Nat) (s : ReqState V)
    (h : stateOf m rid = some s) : (rid, s) ∈ m := by
  unfold stateOf at h
  cases hf : m.find? (fun p => decide (p.1 = rid)) with
  | none => rw [hf] at h; exact absurd h (by simp)
  | some p =>
    rw [hf] at h
    have hp1 : p.1 = rid := by simpa using List.find?_some hf
    have hp2 : p.2 = s := by simpa using h
    have := List.mem_of_find?_eq_some hf
    rw [← hp1, ← hp2]
    exact this

omit [DecidableEq K] in
/-- With a positive max batch size and no cancellations, the invocations
of one dispatch cycle are exactly the per-chunk deduplications of the
slices of the raw queue. -/
theorem dispatchInvocations_eq_map (keyFn : K → CK) (m : Nat) (hm : 0 < m)
    (queue : List (PendingRequest K))
    (hact : ∀ r ∈ queue, r.aborted = false) (hne : queue ≠ []) :
    dispatchInvocations (some m) keyFn queue
      = (sliceChunks m queue).map
          (fun c => dedupByNormalized keyFn (c.map (·.key))) := by
  have hactq : activeOf queue = queue := activeOf_eq_self hact
  simp only [dispatchInvocations, hactq]
  rw [if_neg (by simp [List.isEmpty_iff, hne])]
  rw [show chunksOf (some m) queue = sliceChunks m queue from by
    simp [chunksOf, hm]]
  apply filterMap_eq_map_mem
  intro c hc
  have hcact : activeOf c = c := activeOf_eq_self
    (fun r hr => hact r (sliceChunks_mem_sublist m queue c hc r hr))
  have hcne : c ≠ [] := sliceChunks_mem_ne_nil m queue c hc hm
  have hu : (buildGroups keyFn c).uniqueKeys
      = dedupByNormalized keyFn (c.map (·.key)) := by
    rw [buildGroups_uniqueKeys, hcact]
  simp only [hu]
  rw [if_neg]
  rw [List.isEmpty_iff]
  exact dedupByNormalized_ne_nil keyFn _ (by simpa [List.map_eq_nil_iff] using hcne)

end MoreHelpers

/-- C2: every PendingRequest settles at most once, no matter how many
completion paths race (resolver success, resolver error, per-request
cancellation token, batcher-wide abort); a cancellation token that fires
after the request has already settled has no effect and causes no second
callback. -/
theorem claim_C2_settle_at_most_once {V : Type} :
    (∀ evs : List (SettleEvent V),
      ((runEvents (freshReq (V := V)) evs).2).length ≤ 1)
    ∧ (∀ s : ReqState V, s.settled = true →
        (applyEvent s SettleEvent.tokenAbort).1.outcome = s.outcome
        ∧ (applyEvent s SettleEvent.tokenAbort).2 = [])
    ∧ (∀ (s : ReqState V) (evs : List (SettleEvent V)), s.settled = true →
        (runEvents s evs).1.outcome = s.outcome ∧ (runEvents s evs).2 = []) := by
  refine ⟨fun evs => runEvents_calls_le_one freshReq rfl evs, ?_, ?_⟩
  · intro s hs
    obtain ⟨_, h2, h3⟩ := applyEvent_settled s hs SettleEvent.tokenAbort
    exact ⟨h2, h3⟩
  · intro s evs hs
    obtain ⟨h1, _, h3⟩ := runEvents_settled s hs evs
    exact ⟨h1, h3⟩

/-- Witness for C2 at concrete inputs: a request that resolves with 7 and
then sees its cancellation token fire delivers exactly one callback, and
the late token leaves the recorded outcome unchanged. -/
theorem claim_C2_witness :
    ((runEvents (freshReq (V := Nat))
        [SettleEvent.resolveCall 7, SettleEvent.tokenAbort]).2).length ≤ 1
    ∧ ((applyEvent (⟨true, some (Settlement.resolved 7), false⟩ : ReqState Nat)
          SettleEvent.tokenAbort).1.outcome = some (Settlement.resolved 7)
        ∧ (applyEvent (⟨true, some (Settlement.resolved 7), false⟩ : ReqState Nat)
          SettleEvent.tokenAbort).2 = []) :=
  ⟨claim_C2_settle_at_most_once.1 _,
   claim_C2_settle_at_most_once.2.1 ⟨true, some (Settlement.resolved 7), false⟩ rfl⟩

/-- C3: when a per-request token fires for a request of an active chunk,
the chunk's shared cancellation source is cancelled if and only if every
request grouped into the chunk is then aborted; one still-wanted sibling
keeps the controller alive, the cancelled caller rejects with the
cancellation error, and the sibling still receives the resolved value. -/
theorem claim_C3_chunk_cancellation {K : Type} (c : InFlightChunk K) (rid : Nat)
    (hc : c.controllerAborted = false) :
    ((onAbortInFlight c rid).controllerAborted = true
      ↔ ∀ r ∈ (onAbortInFlight c rid).requests, r.aborted = true)
    ∧ ((∃ r ∈ c.requests, r.rid ≠ rid ∧ r.aborted = false)
        → (onAbortInFlight c rid).controllerAborted = false)
    ∧ ((onAbortInFlight (⟨[⟨1, 5, false⟩, ⟨2, 5, false⟩], false⟩ :
          InFlightChunk Nat) 1).controllerAborted = false
      ∧ (runEvents (freshReq (V := String)) [SettleEvent.tokenAbort]).2
          = [Settlement.rejected JsError.abortError]
      ∧ processChunkSettlements (fun n : Nat => n) (fun n => toString n)
          (MatchStrategy.custom (fun xs _ => xs.get? 0))
          [⟨1, 5, false⟩, ⟨2, 5, false⟩] (fun i => decide (i = 1))
          (Except.ok (ResolverResult.arr ["v"])) false
        = [(2, Settlement.resolved "v")]) := by
  refine ⟨?_, ?_, by decide, by decide, by decide⟩
  · rw [show (onAbortInFlight c rid).controllerAborted
        = (markAborted c.requests rid).all (·.aborted) from by
      simp [onAbortInFlight, hc]]
    exact markAborted_all_iff c.requests rid
  · rintro ⟨r, hr, hne, hab⟩
    have hmem : r ∈ markAborted c.requests rid :=
      markAborted_mem_other c.requests rid r hr hne
    have hall : (markAborted c.requests rid).all (·.aborted) = false := by
      rcases Bool.eq_false_or_eq_true ((markAborted c.requests rid).all (·.aborted))
        with h | h
      · rw [List.all_eq_true] at h
        exact absurd (h r hmem) (by rw [hab]; exact Bool.false_ne_true)
      · exact h
    simp [onAbortInFlight, hc, hall]

/-- Witness for C3: two requests for the same key share a chunk; request 1
is cancelled, request 2 is still wanted, so the controller stays alive. -/
theorem claim_C3_witness :
    ((onAbortInFlight (⟨[⟨1, 5, false⟩, ⟨2, 5, false⟩], false⟩ :
        InFlightChunk Nat) 1).controllerAborted = true
      ↔ ∀ r ∈ (onAbortInFlight (⟨[⟨1, 5, false⟩, ⟨2, 5, false⟩], false⟩ :
        InFlightChunk Nat) 1).requests, r.aborted = true)
    ∧ (onAbortInFlight (⟨[⟨1, 5, false⟩, ⟨2, 5, false⟩], false⟩ :
        InFlightChunk Nat) 1).controllerAborted = false :=
  ⟨(claim_C3_chunk_cancellation _ 1 rfl).1,
   (claim_C3_chunk_cancellation _ 1 rfl).2.1
     ⟨⟨2, 5, false⟩, by decide, by decide, rfl⟩⟩

/-- C8 counterexample: `createTracer`'s `emit` has no try/catch around the
caller-supplied sink, so a sink that throws on the get event makes the
synchronous emit at the top of `getSingle` throw instead of being
discarded at the tracing boundary. -/
theorem claim_C8_counterexample :
    getEmitsTrace (some (fun _ => Except.error (JsError.resolverError "sink boom")))
      = Except.error (JsError.resolverError "sink boom")
    ∧ getEmitsTrace (some (fun _ => Except.error (JsError.resolverError "sink boom")))
      ≠ Except.ok () :=
  ⟨rfl, fun h => Except.noConfusion h⟩

/-- C8 amended: an exception thrown by the trace sink is not caught at the
tracing boundary: `emit` propagates the sink's error verbatim to the
engine call that emitted the event, so a sink that throws on the get
event makes the `get()` intake itself throw. -/
theorem claim_C8_amended (handler : TraceEventKind → Except JsError Unit)
    (ev : TraceEventKind) (e : JsError) (h : handler ev = Except.error e) :
    emit (some handler) ev = Except.error e
    ∧ (handler TraceEventKind.get = Except.error e
        → getEmitsTrace (some handler) = Except.error e) := by
  constructor
  · rw [show emit (some handler) ev = handler ev from rfl, h]
  · intro hget
    rw [show getEmitsTrace (some handler)
        = handler TraceEventKind.get from rfl, hget]

/-- Witness for C8 amended: a concrete throwing sink propagates. -/
theorem claim_C8_amended_witness :
    emit (some (fun _ => Except.error (JsError.resolverError "boom")))
        TraceEventKind.get
      = Except.error (JsError.resolverError "boom") :=
  (claim_C8_amended (fun _ => Except.error (JsError.resolverError "boom"))
    TraceEventKind.get (JsError.resolverError "boom") rfl).1

/-- C10: the resolver receives the original caller-supplied keys, one per
distinct normalized-key class in first-occurrence order; the normalizer
only groups and deduplicates, and its output is never handed to the
resolver (at normalizer `n % 2` over keys `[2, 4, 3]` the resolver sees
`[2, 3]`, not the normalized `[0, 1]`). -/
theorem claim_C10_raw_keys_to_resolver {K CK : Type} [DecidableEq CK]
    (keyFn : K → CK) (chunk : List (PendingRequest K)) :
    ((buildGroups keyFn chunk).uniqueKeys
        = dedupByNormalized keyFn ((activeOf chunk).map (·.key)))
    ∧ (∀ k ∈ (buildGroups keyFn chunk).uniqueKeys, k ∈ chunk.map (·.key))
    ∧ ((buildGroups (fun n : Nat => n % 2)
          [⟨0, 2, false⟩, ⟨1, 4, false⟩, ⟨2, 3, false⟩]).uniqueKeys = [2, 3]
        ∧ [2, 3] ≠ [2 % 2, 3 % 2]) := by
  refine ⟨buildGroups_uniqueKeys keyFn chunk, ?_, by decide, by decide⟩
  intro k hk
  rw [buildGroups_uniqueKeys] at hk
  have hmem := dedupByNormalized_subset keyFn _ k hk
  obtain ⟨r, hr, hrk⟩ := List.mem_map.mp hmem
  exact List.mem_map.mpr ⟨r, List.mem_of_mem_filter hr, hrk⟩

/-- C1: for every set of get() calls issued synchronously within one
dispatch cycle, the resolver is invoked exactly once per resulting chunk
(here: once, with the default unlimited batch size) with the
deduplicated-by-normalized-key, first-occurrence-ordered key sequence;
each normalized class contributes at most one entry; N requests yield N
independently settled results, requests sharing a class receiving equal
settlements; concretely get(a), get(b), get(a) causes one resolver call
with [a, b] and three settlements, two of them equal. -/
theorem claim_C1_synchronous_cycle {K CK : Type} [DecidableEq CK] [DecidableEq K]
    (keyFn : K → CK) (queue : List (PendingRequest K))
    (hact : ∀ r ∈ queue, r.aborted = false) (hne : queue ≠ []) :
    (dispatchInvocations none keyFn queue
        = [dedupByNormalized keyFn (queue.map (·.key))])
    ∧ (∀ c : CK, (dedupByNormalized keyFn (queue.map (·.key))).countP
        (fun k => decide (keyFn k = c)) ≤ 1)
    ∧ (∀ (V : Type) (strKey : K → String) (f : List V → K → Option V)
        (xs : List V),
        (processChunkSettlements keyFn strKey (MatchStrategy.custom f) queue
          (fun _ => false) (Except.ok (ResolverResult.arr xs)) false).length
          = queue.length)
    ∧ (∀ (V : Type) (strKey : K → String) (f : List V → K → Option V)
        (xs : List V) (r1 r2 : PendingRequest K), r1 ∈ queue → r2 ∈ queue →
        keyFn r1.key = keyFn r2.key →
        ∃ s : Settlement V,
          (r1.rid, s) ∈ processChunkSettlements keyFn strKey
              (MatchStrategy.custom f) queue (fun _ => false)
              (Except.ok (ResolverResult.arr xs)) false
          ∧ (r2.rid, s) ∈ processChunkSettlements keyFn strKey
              (MatchStrategy.custom f) queue (fun _ => false)
              (Except.ok (ResolverResult.arr xs)) false)
    ∧ (dispatchInvocations none (fun s : String => s)
          [⟨0, "a", false⟩, ⟨1, "b", false⟩, ⟨2, "a", false⟩] = [["a", "b"]]
        ∧ processChunkSettlements (fun s : String => s) (fun s => s)
            MatchStrategy.indexed
            [⟨0, "a", false⟩, ⟨1, "b", false⟩, ⟨2, "a", false⟩]
            (fun _ => false)
            (Except.ok (ResolverResult.record [("a", "va"), ("b", "vb")])) false
          = [(0, Settlement.resolved "va"), (2, Settlement.resolved "va"),
             (1, Settlement.resolved "vb")]) := by
  have hactq : activeOf queue = queue := activeOf_eq_self hact
  have hkeys : queue.map (·.key) ≠ [] := by
    simpa [List.map_eq_nil_iff] using hne
  refine ⟨?_, ?_, ?_, ?_, by decide, by decide⟩
  · have hu : (buildGroups keyFn queue).uniqueKeys
        = dedupByNormalized keyFn (queue.map (·.key)) := by
      rw [buildGroups_uniqueKeys, hactq]
    have hne2 : ¬((dedupByNormalized keyFn (queue.map (·.key))).isEmpty = true) := by
      rw [List.isEmpty_iff]
      exact dedupByNormalized_ne_nil keyFn _ hkeys
    simp only [dispatchInvocations, hactq]
    rw [if_neg (by simp [List.isEmpty_iff, hne])]
    show List.filterMap _ [queue] = _
    simp only [List.filterMap_cons, List.filterMap_nil, hu]
    rw [if_neg hne2]
  · intro c
    exact dedupByNormalized_countP_le_one keyFn _ c
  · intro V strKey f xs
    rw [processChunkSettlements_custom_arr, hactq]
    have hfun : (dedupByNormalized keyFn (queue.map (·.key))).flatMap
        (fun k => settleGroup (fun _ => false) (classReqs keyFn queue (keyFn k))
          (f xs k) ("No result for key: " ++ strKey k))
      = (dedupByNormalized keyFn (queue.map (·.key))).flatMap
        (fun k => (classReqs keyFn queue (keyFn k)).map
          (fun r => (r.rid, settleValue (f xs k) ("No result for key: " ++ strKey k)))) :=
      flatMap_congr_mem _ _ _ (fun k _ => settleGroup_no_aborts _ _ _)
    rw [hfun, length_flatMap_map]
    have hfun2 : (dedupByNormalized keyFn (queue.map (·.key))).flatMap
        (fun k => classReqs keyFn queue (keyFn k))
      = (dedupByNormalized keyFn (queue.map (·.key))).flatMap
        (fun k => queue.filter (fun r => decide (keyFn r.key = keyFn k))) :=
      flatMap_congr_mem _ _ _ (fun k _ => by rw [classReqs, hactq])
    rw [hfun2]
    exact (dedup_flatMap_filter_perm keyFn queue).length_eq
  · intro V strKey f xs r1 r2 h1 h2 hclass
    rw [processChunkSettlements_custom_arr]
    have h1a : r1 ∈ activeOf queue := by rw [hactq]; exact h1
    have h2a : r2 ∈ activeOf queue := by rw [hactq]; exact h2
    obtain ⟨k, hk, hke⟩ := dedupByNormalized_class_covered keyFn
      ((activeOf queue).map (·.key)) r1.key (List.mem_map.mpr ⟨r1, h1a, rfl⟩)
    refine ⟨settleValue (f xs k) ("No result for key: " ++ strKey k), ?_, ?_⟩
    · apply List.mem_flatMap_of_mem hk
      rw [settleGroup_no_aborts]
      exact List.mem_map.mpr ⟨r1, List.mem_filter.mpr ⟨h1a, by simp [hke]⟩, rfl⟩
    · apply List.mem_flatMap_of_mem hk
      rw [settleGroup_no_aborts]
      refine List.mem_map.mpr ⟨r2, List.mem_filter.mpr ⟨h2a, ?_⟩, rfl⟩
      simp only [decide_eq_true_eq]
      rw [← hclass, ← hke]

/-- Witness for C1: the three-request scenario get(a), get(b), get(a)
discharges the hypotheses of the cycle theorem. -/
theorem claim_C1_witness :
    dispatchInvocations none (fun s : String => s)
        [⟨0, "a", false⟩, ⟨1, "b", false⟩, ⟨2, "a", false⟩]
      = [dedupByNormalized (fun s : String => s) ["a", "b", "a"]] :=
  (claim_C1_synchronous_cycle (fun s : String => s)
    [⟨0, "a", false⟩, ⟨1, "b", false⟩, ⟨2, "a", false⟩]
    (by decide) (by decide)).1

/-- C5: with max batch size M > 0 and K requests in one cycle, the
resolver is invoked exactly ceil(K/M) times, each invocation receiving
at most M keys, with the chunks processed in enqueue order (the
invocation list follows the slice order of the raw queue, whose
concatenation restores the queue); chunking splits the raw request
list, deduplication happening independently inside each chunk;
concretely max 2 with five distinct keys gives three invocations of
sizes 2, 2, 1 in order, and max 2 over keys [a, a, b] gives
invocations [a], [b] rather than one deduplicated pair. -/
theorem claim_C5_chunking {K CK : Type} [DecidableEq CK] (keyFn : K → CK)
    (m : Nat) (hm : 0 < m) (queue : List (PendingRequest K))
    (hact : ∀ r ∈ queue, r.aborted = false) (hne : queue ≠ []) :
    (dispatchInvocations (some m) keyFn queue
        = (sliceChunks m queue).map
            (fun c => dedupByNormalized keyFn (c.map (·.key))))
    ∧ (dispatchInvocations (some m) keyFn queue).length
        = (queue.length + m - 1) / m
    ∧ (∀ ks ∈ dispatchInvocations (some m) keyFn queue, ks.length ≤ m)
    ∧ (sliceChunks m queue).flatten = queue
    ∧ (dispatchInvocations (some 2) (fun n : Nat => n)
          [⟨0, 10, false⟩, ⟨1, 11, false⟩, ⟨2, 12, false⟩, ⟨3, 13, false⟩,
           ⟨4, 14, false⟩]
        = [[10, 11], [12, 13], [14]])
    ∧ (dispatchInvocations (some 2) (fun s : String => s)
          [⟨0, "a", false⟩, ⟨1, "a", false⟩, ⟨2, "b", false⟩]
        = [["a"], ["b"]]) := by
  refine ⟨dispatchInvocations_eq_map keyFn m hm queue hact hne, ?_, ?_, ?_, ?_, ?_⟩
  · rw [dispatchInvocations_eq_map keyFn m hm queue hact hne, List.length_map]
    exact sliceChunks_length m hm queue
  · intro ks hks
    rw [dispatchInvocations_eq_map keyFn m hm queue hact hne] at hks
    obtain ⟨c, hc, hck⟩ := List.mem_map.mp hks
    calc ks.length = (dedupByNormalized keyFn (c.map (·.key))).length := by
          rw [hck]
      _ ≤ (c.map (·.key)).length := dedupByNormalized_length_le keyFn _
      _ = c.length := List.length_map _ _
      _ ≤ m := sliceChunks_mem_length m queue c hc hm
  · exact sliceChunks_flatten m (Nat.pos_iff_ne_zero.mp hm) queue
  · rw [dispatchInvocations_eq_map (fun n : Nat => n) 2 (by decide) _
      (by decide) (by decide)]
    rw [show sliceChunks 2 [(⟨0, 10, false⟩ : PendingRequest Nat), ⟨1, 11, false⟩,
        ⟨2, 12, false⟩, ⟨3, 13, false⟩, ⟨4, 14, false⟩]
        = [[⟨0, 10, false⟩, ⟨1, 11, false⟩], [⟨2, 12, false⟩, ⟨3, 13, false⟩],
           [⟨4, 14, false⟩]] from by
      simp [sliceChunks_cons, sliceChunks_nil]]
    simp [dedupByNormalized_cons, dedupByNormalized_nil]
  · rw [dispatchInvocations_eq_map (fun s : String => s) 2 (by decide) _
      (by decide) (by decide)]
    rw [show sliceChunks 2 [(⟨0, "a", false⟩ : PendingRequest String),
        ⟨1, "a", false⟩, ⟨2, "b", false⟩]
        = [[⟨0, "a", false⟩, ⟨1, "a", false⟩], [⟨2, "b", false⟩]] from by
      simp [sliceChunks_cons, sliceChunks_nil]]
    simp [dedupByNormalized_cons, dedupByNormalized_nil]

/-- Witness for C5: max batch size 2 over five distinct keys discharges
the hypotheses of the chunking theorem. -/
theorem claim_C5_witness :
    (dispatchInvocations (some 2) (fun n : Nat => n)
        [⟨0, 10, false⟩, ⟨1, 11, false⟩, ⟨2, 12, false⟩, ⟨3, 13, false⟩,
         ⟨4, 14, false⟩]).length = (5 + 2 - 1) / 2 :=
  (claim_C5_chunking (fun n : Nat => n) 2 (by decide)
    [⟨0, 10, false⟩, ⟨1, 11, false⟩, ⟨2, 12, false⟩, ⟨3, 13, false⟩,
     ⟨4, 14, false⟩] (by decide) (by decide)).2.1

/-- C4: abort() settles every request in the queue and every request
grouped into any active chunk: each such request ends aborted and
settled, those not already settled rejecting with the cancellation
error and those already settled keeping their outcome; the queue and
pendingKeys are cleared, every active chunk's cancellation source is
cancelled, and the pending schedule is cancelled; a get() issued after
abort() starts a fresh cycle: it enters an otherwise-empty queue as a
fresh, unaborted request and schedules a new dispatch. -/
theorem claim_C4_abort {K CK V : Type} [DecidableEq CK] (keyFn : K → CK)
    (st : BatcherState CK V)
    (hinv : ∀ p ∈ st.reqs, p.2.aborted = true → p.2.settled = true) :
    (∀ rid, (rid ∈ st.queue ∨ rid ∈ st.activeRequests) →
      ∀ s, reqStateOf st rid = some s →
        reqStateOf (abort st) rid = some (rejectAsAborted s)
        ∧ (rejectAsAborted s).aborted = true
        ∧ (rejectAsAborted s).settled = true
        ∧ (s.settled = false → (rejectAsAborted s).outcome
            = some (Settlement.rejected JsError.abortError))
        ∧ (s.settled = true → (rejectAsAborted s).outcome = s.outcome))
    ∧ (abort st).queue = []
    ∧ (abort st).pendingKeys = []
    ∧ (∀ c ∈ (abort st).inFlight, c.controllerAborted = true)
    ∧ (abort st).isScheduled = false
    ∧ (abort st).hasCleanup = false
    ∧ (∀ (rid : Nat) (key : K), reqStateOf (abort st) rid = none →
        (getSingleSync keyFn (abort st) rid key).queue = [rid]
        ∧ (getSingleSync keyFn (abort st) rid key).isScheduled = true
        ∧ reqStateOf (getSingleSync keyFn (abort st) rid key) rid
            = some freshReq) := by
  refine ⟨?_, rfl, rfl, ?_, rfl, rfl, ?_⟩
  · intro rid hmem s hs
    have hfound : reqStateOf (abort st) rid = some (rejectAsAborted s) := by
      rw [abort_stateOf, if_pos hmem, hs]
      rfl
    have hsmem := stateOf_mem st.reqs rid s hs
    obtain ⟨h1, h2, h3, h4⟩ := rejectAsAborted_spec s (hinv (rid, s) hsmem)
    exact ⟨hfound, h1, h2, h4, h3⟩
  · intro c hc
    obtain ⟨c0, _, hc0⟩ := List.mem_map.mp hc
    rw [← hc0]
  · intro rid key hfresh
    have hpend : (abort st).pendingKeys = [] := rfl
    have hq : (abort st).queue = [] := rfl
    have hsch : (abort st).isScheduled = false := rfl
    rw [reqStateOf_eq_stateOf] at hfresh
    constructor
    · simp [getSingleSync, hpend, hq, hsch]
    constructor
    · simp [getSingleSync, hpend, hq, hsch]
    · rw [reqStateOf_eq_stateOf]
      have hreqs : (getSingleSync keyFn (abort st) rid key).reqs
          = (abort st).reqs ++ [(rid, freshReq)] := by
        simp [getSingleSync, hpend, hq, hsch]
      rw [hreqs, stateOf_append_single, hfresh]
      simp

/-- Witness for C4 at a concrete registry state with one queued and one
in-flight request. -/
theorem claim_C4_witness :
    reqStateOf (abort (⟨[(1, freshReq), (2, freshReq)], [1], ["a"], [2],
        [⟨[2], false⟩], true, true⟩ : BatcherState String Nat)) 1
      = some (rejectAsAborted freshReq)
    ∧ (abort (⟨[(1, freshReq), (2, freshReq)], [1], ["a"], [2],
        [⟨[2], false⟩], true, true⟩ : BatcherState String Nat)).queue = []
    ∧ (getSingleSync (fun s : String => s)
        (abort (⟨[(1, freshReq), (2, freshReq)], [1], ["a"], [2],
          [⟨[2], false⟩], true, true⟩ : BatcherState String Nat)) 3 "b").queue
      = [3] := by
  have h := claim_C4_abort (fun s : String => s)
    (⟨[(1, freshReq), (2, freshReq)], [1], ["a"], [2],
      [⟨[2], false⟩], true, true⟩ : BatcherState String Nat) (by decide)
  exact ⟨(h.1 1 (Or.inl (by decide)) freshReq (by decide)).1, h.2.1,
    (h.2.2.2.2.2.2 3 "b" (by decide)).1⟩

/-- C9 counterexample: `get(keys[])` is `Promise.all` over the single-key
intakes, and `Promise.all` rejects as soon as one intake rejects: with
max batch size 1, keys [a, b] and an indexed resolver missing a, the
intake for a rejects while chunk 0 settles and the intake for b only
fulfills at chunk 1, yet the aggregate settles already at time 0 —
before all N intakes have settled, contradicting the claim as stated. -/
theorem claim_C9_counterexample :
    intakeOutcomes (some 1) (fun s : String => s) (fun s => s)
        MatchStrategy.indexed (fun _ => ResolverResult.record [("b", "vb")])
        ["a", "b"]
      = [(0, Outcome.rejected (JsError.batchError "No result for key: a")),
         (1, Outcome.fulfilled "vb")]
    ∧ getManyTimed (some 1) (fun s : String => s) (fun s => s)
        MatchStrategy.indexed (fun _ => ResolverResult.record [("b", "vb")])
        ["a", "b"]
      = (0, Outcome.rejected (JsError.batchError "No result for key: a"))
    ∧ (getManyTimed (some 1) (fun s : String => s) (fun s => s)
        MatchStrategy.indexed (fun _ => ResolverResult.record [("b", "vb")])
        ["a", "b"]).1 < 1 := by
  have hslice : sliceChunks 1
      [(⟨0, "a", false⟩ : PendingRequest String), ⟨1, "b", false⟩]
      = [[⟨0, "a", false⟩], [⟨1, "b", false⟩]] := by
    simp [sliceChunks_cons, sliceChunks_nil]
  have hchunks : chunksOf (some 1)
      (activeOf [(⟨0, "a", false⟩ : PendingRequest String), ⟨1, "b", false⟩])
      = [[⟨0, "a", false⟩], [⟨1, "b", false⟩]] := by
    rw [show activeOf [(⟨0, "a", false⟩ : PendingRequest String), ⟨1, "b", false⟩]
        = [⟨0, "a", false⟩, ⟨1, "b", false⟩] from by decide]
    simp [chunksOf, hslice]
  have hreq : requestsOf ["a", "b"]
      = [(⟨0, "a", false⟩ : PendingRequest String), ⟨1, "b", false⟩] := by decide
  have hcycle : cycleSettleTimed (some 1) (fun s : String => s) (fun s => s)
      MatchStrategy.indexed (fun _ => ResolverResult.record [("b", "vb")])
      (requestsOf ["a", "b"])
      = [(0, 0, Settlement.rejected (JsError.batchError "No result for key: a")),
         (1, 1, Settlement.resolved "vb")] := by
    rw [cycleSettleTimed, hreq, hchunks]
    decide
  have hintake : intakeOutcomes (some 1) (fun s : String => s) (fun s => s)
      MatchStrategy.indexed (fun _ => ResolverResult.record [("b", "vb")])
      ["a", "b"]
      = [(0, Outcome.rejected (JsError.batchError "No result for key: a")),
         (1, Outcome.fulfilled "vb")] := by
    simp only [intakeOutcomes]
    rw [hcycle, hreq]
    decide
  refine ⟨hintake, ?_, ?_⟩
  · rw [getManyTimed, hintake]
    decide
  · rw [getManyTimed, hintake]
    decide

/-- C9 amended: `get(keys[])` issues one single-key intake per key, in the
caller's input order; when every intake fulfills, the aggregate fulfills
with the values in input order, and only at a time no earlier than any
intake's settlement; when some intake rejects, the aggregate rejects
with the earliest rejection (Promise.all semantics), possibly before the
remaining intakes settle. -/
theorem claim_C9_promise_all {K V : Type} (keys : List K)
    (ps : List (Nat × Outcome V)) (vs : List V) :
    ((requestsOf keys).map (·.key) = keys
      ∧ (requestsOf keys).length = keys.length)
    ∧ (ps.map (·.2) = vs.map Outcome.fulfilled →
        promiseAllTimed ps = ((ps.map (·.1)).foldr max 0, Outcome.fulfilled vs)
        ∧ ∀ p ∈ ps, p.1 ≤ (promiseAllTimed ps).1)
    ∧ (∀ q, firstRejection ps = some q →
        promiseAllTimed ps = (q.1, Outcome.rejected q.2)
        ∧ ∀ t2 e2, (t2, Outcome.rejected e2) ∈ ps → q.1 ≤ t2) := by
  refine ⟨⟨requestsOf_map_key keys, requestsOf_length keys⟩, ?_, ?_⟩
  · intro h
    refine ⟨promiseAllTimed_fulfilled ps vs h, ?_⟩
    intro p hp
    rw [promiseAllTimed_fulfilled ps vs h]
    exact le_foldr_max _ p.1 (List.mem_map.mpr ⟨p, hp, rfl⟩)
  · intro q hq
    exact promiseAllTimed_rejected ps q hq

/-- Witness for the C9 amended theorem: two fulfilled intakes aggregate,
in order, at the later settlement time. -/
theorem claim_C9_witness :
    promiseAllTimed [(0, Outcome.fulfilled "va"), (1, Outcome.fulfilled "vb")]
      = (([(0, Outcome.fulfilled "va"),
          (1, Outcome.fulfilled "vb")].map (·.1)).foldr max 0,
         Outcome.fulfilled ["va", "vb"]) :=
  ((claim_C9_promise_all ([] : List String)
      [(0, Outcome.fulfilled "va"), (1, Outcome.fulfilled "vb")]
      ["va", "vb"]).2.1 (by decide)).1

/-- C6 counterexample: the indexed strategy performs no shape check, and a
JavaScript array is string-indexable, so an ordered-sequence result
returned where a lookup table is required is partially interpreted
instead of failing the whole chunk: with requested keys `"0"` and `"x"`
and resolver result `["v"]`, the request for `"0"` resolves with `"v"`
while only `"x"` rejects. -/
theorem claim_C6_counterexample :
    processChunkSettlements (fun s : String => s) (fun s => s)
        MatchStrategy.indexed [⟨0, "0", false⟩, ⟨1, "x", false⟩]
        (fun _ => false) (Except.ok (ResolverResult.arr ["v"])) false
      = [(0, Settlement.resolved "v"),
         (1, Settlement.rejected (JsError.batchError "No result for key: x"))]
    ∧ (0, Settlement.resolved "v")
        ∈ processChunkSettlements (fun s : String => s) (fun s => s)
            MatchStrategy.indexed [⟨0, "0", false⟩, ⟨1, "x", false⟩]
            (fun _ => false) (Except.ok (ResolverResult.arr ["v"])) false := by
  decide

/-- C6 amended: for the array strategies (field/custom) a lookup-table
result rejects every request of the chunk with the one `BatchError`
shape-violation message and resolves nothing; the indexed strategy
performs no shape check, and an ordered-sequence result is interpreted
as a string-indexed lookup, each deduplicated key settled from the
JavaScript index lookup of its stringified key (so numeric-string keys
may resolve with elements while the rest reject individually). -/
theorem claim_C6_amended {K CK V : Type} [DecidableEq CK] [DecidableEq K]
    (keyFn : K → CK) (strKey : K → String) (f : List V → K → Option V)
    (chunk : List (PendingRequest K)) (entries : List (String × V)) :
    (∀ p ∈ processChunkSettlements keyFn strKey (MatchStrategy.custom f) chunk
        (fun _ => false) (Except.ok (ResolverResult.record entries)) false,
      p.2 = Settlement.rejected (JsError.batchError nonArrayMsg))
    ∧ (∀ r ∈ chunk, r.aborted = false →
        (r.rid, Settlement.rejected (JsError.batchError nonArrayMsg))
          ∈ processChunkSettlements keyFn strKey (MatchStrategy.custom f) chunk
              (fun _ => false) (Except.ok (ResolverResult.record entries)) false)
    ∧ (∀ xs : List V,
        processChunkSettlements keyFn strKey MatchStrategy.indexed chunk
            (fun _ => false) (Except.ok (ResolverResult.arr xs)) false
          = (dedupByNormalized keyFn ((activeOf chunk).map (·.key))).flatMap
              (fun k => settleGroup (fun _ => false)
                (classReqs keyFn chunk (keyFn k))
                (jsIndex (ResolverResult.arr xs) (strKey k))
                ("No result for key: " ++ strKey k))) := by
  refine ⟨?_, ?_, ?_⟩
  · intro p hp
    rw [processChunkSettlements_custom_record] at hp
    by_cases hU : (buildGroups keyFn chunk).uniqueKeys.isEmpty
    · rw [if_pos hU] at hp
      exact absurd hp (List.not_mem_nil p)
    · rw [if_neg hU] at hp
      exact mem_rejectRemaining _ _ _ p hp
  · intro r hr hab
    rw [processChunkSettlements_custom_record]
    have hract : r ∈ activeOf chunk :=
      List.mem_filter.mpr ⟨hr, by simp [hab]⟩
    have hU : ¬(buildGroups keyFn chunk).uniqueKeys.isEmpty := by
      rw [buildGroups_uniqueKeys, List.isEmpty_iff]
      apply dedupByNormalized_ne_nil
      intro hmap
      rw [List.map_eq_nil_iff] at hmap
      rw [hmap] at hract
      exact List.not_mem_nil r hract
    rw [if_neg hU]
    apply List.mem_filterMap.mpr
    refine ⟨r, ?_, by simp⟩
    exact (mem_flatten_groups keyFn chunk r).mpr hract
  · intro xs
    exact processChunkSettlements_indexed keyFn strKey chunk (fun _ => false)
      (ResolverResult.arr xs)

/-- Witness for C6 amended: a concrete chunk under the custom strategy
with a lookup-table result is wholly rejected with the shape error. -/
theorem claim_C6_amended_witness :
    (1, Settlement.rejected (JsError.batchError nonArrayMsg))
      ∈ processChunkSettlements (fun s : String => s) (fun s => s)
          (MatchStrategy.custom (fun xs _ => xs.get? 0))
          [⟨1, "a", false⟩] (fun _ => false)
          (Except.ok (ResolverResult.record [("a", "va")])) false :=
  (claim_C6_amended (fun s : String => s) (fun s => s) (fun xs _ => xs.get? 0)
      [⟨1, "a", false⟩] [("a", "va")]).2.1
    ⟨1, "a", false⟩ (List.mem_singleton.mpr rfl) rfl

/-- C7: under the indexed strategy, when the resolver's lookup table has
no entry under the stringified key of one requested class, the requests
of that class reject with the per-key BatchError while every request of
a class whose representative key has an entry resolves with that entry's
value from the same call, receiving no rejection. -/
theorem claim_C7_indexed_missing_key {K CK V : Type} [DecidableEq CK]
    [DecidableEq K] (keyFn : K → CK) (strKey : K → String)
    (chunk : List (PendingRequest K)) (entries : List (String × V))
    (hnodup : (chunk.map (·.rid)).Nodup) (k0 : K)
    (hmem : k0 ∈ (buildGroups keyFn chunk).uniqueKeys)
    (hmiss : jsIndex (ResolverResult.record entries) (strKey k0) = none) :
    (∀ r ∈ chunk, r.aborted = false → keyFn r.key = keyFn k0 →
      (r.rid, Settlement.rejected (JsError.batchError
          ("No result for key: " ++ strKey k0)))
        ∈ processChunkSettlements keyFn strKey MatchStrategy.indexed chunk
            (fun _ => false) (Except.ok (ResolverResult.record entries)) false)
    ∧ (∀ r ∈ chunk, r.aborted = false →
        ∀ k ∈ (buildGroups keyFn chunk).uniqueKeys, keyFn k = keyFn r.key →
        ∀ v, jsIndex (ResolverResult.record entries) (strKey k) = some v →
          (r.rid, Settlement.resolved v)
            ∈ processChunkSettlements keyFn strKey MatchStrategy.indexed chunk
                (fun _ => false) (Except.ok (ResolverResult.record entries)) false)
    ∧ (∀ r ∈ chunk, r.aborted = false →
        (∀ k ∈ (buildGroups keyFn chunk).uniqueKeys, keyFn k = keyFn r.key →
          ∃ v, jsIndex (ResolverResult.record entries) (strKey k) = some v) →
        ∀ e, (r.rid, Settlement.rejected e)
            ∉ processChunkSettlements keyFn strKey MatchStrategy.indexed chunk
                (fun _ => false) (Except.ok (ResolverResult.record entries)) false) := by
  have hU : (buildGroups keyFn chunk).uniqueKeys
      = dedupByNormalized keyFn ((activeOf chunk).map (·.key)) :=
    buildGroups_uniqueKeys keyFn chunk
  refine ⟨?_, ?_, ?_⟩
  · intro r hr hab hclass
    rw [processChunkSettlements_indexed]
    apply List.mem_flatMap_of_mem (hU ▸ hmem)
    rw [settleGroup_no_aborts, hmiss]
    refine List.mem_map.mpr ⟨r, List.mem_filter.mpr
      ⟨List.mem_filter.mpr ⟨hr, by simp [hab]⟩, by simp [hclass]⟩, rfl⟩
  · intro r hr hab k hk hke v hv
    rw [processChunkSettlements_indexed]
    apply List.mem_flatMap_of_mem (hU ▸ hk)
    rw [settleGroup_no_aborts, hv]
    refine List.mem_map.mpr ⟨r, List.mem_filter.mpr
      ⟨List.mem_filter.mpr ⟨hr, by simp [hab]⟩, by simp [hke.symm]⟩, rfl⟩
  · intro r hr hab hserved e hbad
    rw [processChunkSettlements_indexed] at hbad
    obtain ⟨k', hk', hsg⟩ := List.mem_flatMap.mp hbad
    rw [settleGroup_no_aborts] at hsg
    obtain ⟨r', hr'cls, heq⟩ := List.mem_map.mp hsg
    have hridEq : r'.rid = r.rid := congrArg Prod.fst heq
    have hr'chunk : r' ∈ chunk :=
      List.mem_of_mem_filter (List.mem_of_mem_filter hr'cls)
    have hr'r : r' = r :=
      List.inj_on_of_nodup_map hnodup hr'chunk hr hridEq
    have hclassEq : keyFn r.key = keyFn k' := by
      have := List.of_mem_filter hr'cls
      rw [hr'r] at this
      simpa using this
    obtain ⟨v, hv⟩ := hserved k' (hU ▸ hk') hclassEq.symm
    rw [hv] at heq
    have : Settlement.resolved v = Settlement.rejected e :=
      congrArg Prod.snd heq
    exact Settlement.noConfusion this

/-- Witness for C7: chunk requesting a (missing) and b (present): request
1 rejects with the per-key BatchError, request 2 resolves with vb. -/
theorem claim_C7_witness :
    (1, Settlement.rejected (JsError.batchError ("No result for key: " ++ "a")))
      ∈ processChunkSettlements (fun s : String => s) (fun s => s)
          MatchStrategy.indexed [⟨1, "a", false⟩, ⟨2, "b", false⟩]
          (fun _ => false)
          (Except.ok (ResolverResult.record [("b", "vb")])) false
    ∧ (2, Settlement.resolved "vb")
      ∈ processChunkSettlements (fun s : String => s) (fun s => s)
          MatchStrategy.indexed [⟨1, "a", false⟩, ⟨2, "b", false⟩]
          (fun _ => false)
          (Except.ok (ResolverResult.record [("b", "vb")])) false :=
  ⟨(claim_C7_indexed_missing_key (fun s : String => s) (fun s => s)
      [⟨1, "a", false⟩, ⟨2, "b", false⟩] [("b", "vb")] (by decide) "a"
      (by decide) (by decide)).1 ⟨1, "a", false⟩ (by decide) rfl rfl,
   (claim_C7_indexed_missing_key (fun s : String => s) (fun s => s)
      [⟨1, "a", false⟩, ⟨2, "b", false⟩] [("b", "vb")] (by decide) "a"
      (by decide) (by decide)).2.1 ⟨2, "b", false⟩ (by decide) rfl "b"
      (by decide) rfl "vb" (by decide)⟩

/-- Witness for C10 at a concrete normalizer and chunk. -/
theorem claim_C10_witness :
    ∀ k ∈ (buildGroups (fun n : Nat => n % 2)
        [⟨0, 2, false⟩, ⟨1, 4, false⟩, ⟨2, 3, false⟩]).uniqueKeys,
      k ∈ [(2 : Nat), 4, 3] :=
  fun k hk =>
    (claim_C10_raw_keys_to_resolver (fun n : Nat => n % 2)
      [⟨0, 2, false⟩, ⟨1, 4, false⟩, ⟨2, 3, false⟩]).2.1 k hk

end Batchkit
